import Mathlib

/-!
Verification of the thumbnail pre-generation pipeline of
cas-web-asset-server (`pregen/` package).

The Python code is shallowly embedded: Python strings are lists of
characters (`Str`), Python dicts (which preserve insertion order) are
association lists with a no-duplicate-key representation invariant,
machine-independent Python integers are `Nat` (all quantities involved
are non-negative counts and sizes), and fallible code returns `Option`
or `Except`.  Wall-clock timestamps, logging and the floating-point
scan duration are not modelled (the duration is carried as an opaque
integer field; no claim depends on its value).
-/

namespace Pregen

/-- Python strings are modelled as lists of characters. -/
abbrev Str := List Char

/-- Lexicographic `<=` on strings by code point, as Python's `str` order
(`a <= b`). -/
def strLe : Str → Str → Bool
  | [], _ => true
  | _ :: _, [] => false
  | a :: as, b :: bs => if a < b then true else if a = b then strLe as bs else false

/-- Does `s` start with `p`?  Models Python `str.startswith` / an S3
`Prefix=` listing filter. -/
def strStartsWith : Str → Str → Bool
  | _, [] => true
  | [], _ :: _ => false
  | a :: s, b :: p => a = b && strStartsWith s p

/-- Split at the last occurrence of `c`: `rsplit1 c s = some (before, after)`
with `s = before ++ c :: after` and `c ∉ after`; `none` when `c ∉ s`.
Models Python `s.rsplit(c, 1)` (which yields the whole string when the
separator is absent; callers that unpack two parts raise `ValueError`
in that case, which we surface as `none`). -/
def rsplit1 (c : Char) : Str → Option (Str × Str)
  | [] => none
  | a :: s =>
    match rsplit1 c s with
    | some (p, q) => some (a :: p, q)
    | none => if a = c then some ([], s) else none

/-- Replace the first occurrence of character `c` by `repl`.  Models
Python `s.replace(c, repl, 1)`. -/
def replaceFirst (c : Char) (repl : Str) : Str → Str
  | [] => []
  | a :: s => if a = c then repl ++ s else a :: replaceFirst c repl s

/-- Strip all trailing `'/'` characters.  Models Python `s.rstrip('/')`. -/
def rstripSlash (s : Str) : Str :=
  ((s.reverse).dropWhile (fun c => c = '/')).reverse

/-- ASCII lower-casing, modelling Python `str.lower` on the ASCII range
(the only range that can produce one of the recognised image
extensions). -/
def asciiLower (s : Str) : Str :=
  s.map Char.toLower

/-- Decimal digit character for `d < 10`. -/
def digitChar (d : Nat) : Char := Char.ofNat (48 + d)

/-- Fuel-driven decimal printer (most significant digit first). -/
def natToDecimalAux : Nat → Nat → Str
  | 0, _ => []
  | fuel + 1, n =>
    if n < 10 then [digitChar n]
    else natToDecimalAux fuel (n / 10) ++ [digitChar (n % 10)]

/-- Decimal representation of a natural number, modelling Python
`str(n)` for non-negative `n`. -/
def natToDecimal (n : Nat) : Str := natToDecimalAux (n + 1) n

/-- Decimal parse, modelling Python `int(s)` on a string of digits. -/
def decimalToNat (s : Str) : Nat :=
  s.foldl (fun acc c => acc * 10 + (c.toNat - 48)) 0

/-- Association-list lookup: the value stored at key `k`.  Models Python
`d.get(k)` / `d[k]` on an insertion-ordered dict. -/
def dictLookup {κ α : Type} [DecidableEq κ] (l : List (κ × α)) (k : κ) : Option α :=
  match l with
  | [] => none
  | (k', v) :: rest => if k' = k then some v else dictLookup rest k

/-- Association-list insert-or-update: overwrite the entry at key `k`
in place when present, otherwise append at the end.  Models Python
`d[k] = v` on an insertion-ordered dict. -/
def dictInsert {κ α : Type} [DecidableEq κ] (l : List (κ × α)) (k : κ) (v : α) :
    List (κ × α) :=
  match l with
  | [] => [(k, v)]
  | (k', v') :: rest =>
    if k' = k then (k', v) :: rest else (k', v') :: dictInsert rest k v

/-! Basic lemmas about the string utilities. -/

theorem rsplit1_eq_none_of_not_mem (c : Char) (s : Str) (h : c ∉ s) :
    rsplit1 c s = none := by
  induction s with
  | nil => rfl
  | cons a s ih =>
    simp only [List.mem_cons, not_or] at h
    have ha : ¬ a = c := fun hac => h.1 hac.symm
    simp [rsplit1, ih h.2, ha]

theorem rsplit1_append_cons (c : Char) (xs ys : Str) (h : c ∉ ys) :
    rsplit1 c (xs ++ c :: ys) = some (xs, ys) := by
  induction xs with
  | nil => simp [rsplit1, rsplit1_eq_none_of_not_mem c ys h]
  | cons a xs ih => simp [rsplit1, ih]

theorem strLe_trans (a b c : Str) (hab : strLe a b = true) (hbc : strLe b c = true) :
    strLe a c = true := by
  induction a generalizing b c with
  | nil => rfl
  | cons x xs ih =>
    cases b with
    | nil => exact Bool.noConfusion hab
    | cons y ys =>
      cases c with
      | nil => exact Bool.noConfusion hbc
      | cons z zs =>
        simp only [strLe] at hab hbc ⊢
        by_cases hxy : x < y
        · by_cases hyz : y < z
          · simp [if_pos (lt_trans hxy hyz)]
          · simp only [if_neg hyz] at hbc
            by_cases hyz' : y = z
            · subst hyz'; simp [if_pos hxy]
            · simp [hyz'] at hbc
        · simp only [if_neg hxy] at hab
          by_cases hxy' : x = y
          · subst hxy'
            by_cases hxz : x < z
            · simp [if_pos hxz]
            · simp only [if_neg hxz] at hbc ⊢
              by_cases hxz' : x = z
              · subst hxz'
                simp only [if_pos rfl] at hab hbc ⊢
                exact ih ys zs hab hbc
              · simp [hxz'] at hbc
          · simp [hxy'] at hab

theorem strLe_total (a b : Str) (h : strLe a b = false) : strLe b a = true := by
  induction a generalizing b with
  | nil => exact Bool.noConfusion h
  | cons x xs ih =>
    cases b with
    | nil => rfl
    | cons y ys =>
      simp only [strLe] at h ⊢
      by_cases hxy : x < y
      · simp [if_pos hxy] at h
      · simp only [if_neg hxy] at h
        by_cases hxy' : x = y
        · subst hxy'
          simp only [if_pos rfl] at h
          simp only [if_neg hxy, if_pos rfl]
          exact ih ys h
        · have hyx : y < x := by
            rcases lt_trichotomy x y with h1 | h1 | h1
            · exact absurd h1 hxy
            · exact absurd h1 hxy'
            · exact h1
          simp [if_pos hyx]

/-! Correctness of the decimal codec. -/

theorem digitChar_toNat (d : Nat) (h : d < 10) : (digitChar d).toNat = 48 + d := by
  interval_cases d <;> decide

theorem digitChar_isDigit (d : Nat) (h : d < 10) : (digitChar d).isDigit = true := by
  interval_cases d <;> decide

theorem decimalToNat_append_digit (xs : Str) (d : Nat) (h : d < 10) :
    decimalToNat (xs ++ [digitChar d]) = decimalToNat xs * 10 + d := by
  simp [decimalToNat, List.foldl_append, digitChar_toNat d h]

theorem decimalToNat_natToDecimalAux (fuel n : Nat) (h : n < fuel) :
    decimalToNat (natToDecimalAux fuel n) = n := by
  induction fuel generalizing n with
  | zero => omega
  | succ f ih =>
    simp only [natToDecimalAux]
    by_cases hn : n < 10
    · have : decimalToNat [digitChar n] = n := by
        simp [decimalToNat, digitChar_toNat n hn]
      simp [if_pos hn, this]
    · have hdiv : n / 10 < f := by omega
      rw [if_neg hn, decimalToNat_append_digit _ _ (Nat.mod_lt n (by omega)),
        ih (n / 10) hdiv]
      omega

/-- Python `int(str(n)) = n` for natural `n`. -/
theorem decimalToNat_natToDecimal (n : Nat) : decimalToNat (natToDecimal n) = n :=
  decimalToNat_natToDecimalAux (n + 1) n (Nat.lt_succ_self n)

theorem natToDecimalAux_ne_nil (fuel n : Nat) (h : 0 < fuel) :
    natToDecimalAux fuel n ≠ [] := by
  cases fuel with
  | zero => omega
  | succ f =>
    simp only [natToDecimalAux]
    by_cases hn : n < 10
    · simp [if_pos hn]
    · simp [if_neg hn]

theorem natToDecimal_ne_nil (n : Nat) : natToDecimal n ≠ [] :=
  natToDecimalAux_ne_nil (n + 1) n (Nat.succ_pos n)

theorem mem_natToDecimalAux_isDigit (fuel n : Nat) (c : Char)
    (hc : c ∈ natToDecimalAux fuel n) : c.isDigit = true := by
  induction fuel generalizing n with
  | zero => simp [natToDecimalAux] at hc
  | succ f ih =>
    simp only [natToDecimalAux] at hc
    by_cases hn : n < 10
    · rw [if_pos hn] at hc
      simp only [List.mem_singleton] at hc
      subst hc; exact digitChar_isDigit n hn
    · rw [if_neg hn] at hc
      rcases List.mem_append.mp hc with h | h
      · exact ih (n / 10) h
      · simp only [List.mem_singleton] at h
        subst h; exact digitChar_isDigit _ (Nat.mod_lt n (by omega))

theorem mem_natToDecimal_isDigit (n : Nat) (c : Char) (hc : c ∈ natToDecimal n) :
    c.isDigit = true :=
  mem_natToDecimalAux_isDigit (n + 1) n c hc

end Pregen

namespace Pregen

/-! ## Entity model (`pregen/image_record.py`, `pregen/collection_stats.py`) -/

/-- Information about a single thumbnail at a specific scale
(`ThumbnailInfo` in `image_record.py`). -/
structure ThumbnailInfo where
  scale : Nat
  key : Str
  size : Nat
  modified : Str
deriving DecidableEq

/-- Record for a single image and its thumbnail status (`ImageRecord`).
The `thumbnails` dict (scale -> `ThumbnailInfo`) is an insertion-ordered
association list; well-formed records have pairwise-distinct scales. -/
structure ImageRecord where
  original_key : Str
  original_size : Nat
  original_modified : Str
  base_thumbnail_key : Str
  collection : Str
  filename : Str
  thumbnails : List (Nat × ThumbnailInfo) := []
deriving DecidableEq

/-- `ImageRecord.thumbnail_exists`: true iff ANY thumbnail exists. -/
def ImageRecord.thumbnail_exists (r : ImageRecord) : Bool :=
  decide (0 < r.thumbnails.length)

/-- `ImageRecord.has_thumbnail(scale)` with an explicit scale. -/
def ImageRecord.has_thumbnail (r : ImageRecord) (scale : Nat) : Bool :=
  (dictLookup r.thumbnails scale).isSome

/-- `ImageRecord.add_thumbnail`: add or update thumbnail info for a scale. -/
def ImageRecord.add_thumbnail (r : ImageRecord) (info : ThumbnailInfo) : ImageRecord :=
  { r with thumbnails := dictInsert r.thumbnails info.scale info }

/-- `sum(t.size for t in record.thumbnails.values())`. -/
def ImageRecord.thumbSizeSum (r : ImageRecord) : Nat :=
  (r.thumbnails.map (fun p => p.2.size)).sum

/-- `ImageRecord.get_thumbnail_key(scale)`: the locator for the thumbnail
at `scale`, built by `root, ext = base_thumbnail_key.rsplit('.', 1)` and
`f"{root}_{scale}.{ext}"`.  Python raises `ValueError` if the base key
holds no `'.'`; that is surfaced as `none`. -/
def ImageRecord.get_thumbnail_key (r : ImageRecord) (scale : Nat) : Option Str :=
  match rsplit1 '.' r.base_thumbnail_key with
  | some (root, ext) => some (root ++ '_' :: natToDecimal scale ++ '.' :: ext)
  | none => none

/-- Statistics for a single collection (`CollectionStats`). -/
structure CollectionStats where
  name : Str
  total_images : Nat := 0
  with_thumbnails : Nat := 0
  missing_thumbnails : Nat := 0
  total_original_bytes : Nat := 0
  total_thumbnail_bytes : Nat := 0
deriving DecidableEq

/-! ## Manifest (`pregen/manifest.py`) -/

/-- Complete scan manifest.  `collection_stats` is an insertion-ordered
dict name -> `CollectionStats`; `scan_duration_seconds` is a float in
Python, carried here as an opaque integer (no claim constrains it). -/
structure Manifest where
  created_at : Str
  s3_endpoint : Option Str
  s3_bucket : Option Str
  s3_prefix : Str
  collections : List Str := []
  collection_stats : List (Str × CollectionStats) := []
  records : List ImageRecord := []
  scan_duration_seconds : Int := 0
  storage_type : Str
  local_root : Option Str := none
deriving DecidableEq

/-- The statistics bump `Manifest.add_record` performs on the (possibly
fresh) `CollectionStats` entry of the record's collection. -/
def bumpStats (s : CollectionStats) (r : ImageRecord) : CollectionStats :=
  let s1 : CollectionStats :=
    { s with total_images := s.total_images + 1
             total_original_bytes := s.total_original_bytes + r.original_size }
  if r.thumbnail_exists then
    { s1 with with_thumbnails := s1.with_thumbnails + 1
              total_thumbnail_bytes := s1.total_thumbnail_bytes + r.thumbSizeSum }
  else
    { s1 with missing_thumbnails := s1.missing_thumbnails + 1 }

/-- `CollectionStats(name=...)` with all counters zero. -/
def newStats (name : Str) : CollectionStats := { name := name }

/-- The `collection_stats` dict update of `Manifest.add_record`: bump the
entry of `r.collection`, creating a zeroed one first when absent. -/
def statsDictAdd : List (Str × CollectionStats) → ImageRecord → List (Str × CollectionStats)
  | [], r => [(r.collection, bumpStats (newStats r.collection) r)]
  | (n, s) :: rest, r =>
    if n = r.collection then (n, bumpStats s r) :: rest
    else (n, s) :: statsDictAdd rest r

/-- `Manifest.add_record`: append the record and incrementally update the
per-collection statistics. -/
def Manifest.add_record (m : Manifest) (r : ImageRecord) : Manifest :=
  { m with records := m.records ++ [r]
           collection_stats := statsDictAdd m.collection_stats r }

/-- `Manifest.total_images` property: `len(self.records)`. -/
def Manifest.total_images (m : Manifest) : Nat := m.records.length

/-- `Manifest.total_with_thumbnails` property. -/
def Manifest.total_with_thumbnails (m : Manifest) : Nat :=
  (m.records.filter (fun r => r.thumbnail_exists)).length

/-- `Manifest.total_missing_thumbnails` property. -/
def Manifest.total_missing_thumbnails (m : Manifest) : Nat :=
  (m.records.filter (fun r => !r.thumbnail_exists)).length

/-- `Manifest.create_new`: a fresh manifest with empty collections,
statistics and records (`created_at` is the caller's clock reading). -/
def Manifest.create_new (s3_endpoint s3_bucket : Option Str) (pfx : Str)
    (storage_type : Str) (local_root : Option Str) (created_at : Str) : Manifest :=
  { created_at := created_at
    s3_endpoint := s3_endpoint
    s3_bucket := s3_bucket
    s3_prefix := pfx
    storage_type := storage_type
    local_root := local_root }

/-- Populating a manifest by a sequence of `add_record` calls. -/
def manifestFold (m : Manifest) (rs : List ImageRecord) : Manifest :=
  rs.foldl Manifest.add_record m

/-! Sums of statistics fields over the `collection_stats` dict. -/

def statsSumBy (f : CollectionStats → Nat) (l : List (Str × CollectionStats)) : Nat :=
  (l.map (fun p => f p.2)).sum

theorem statsSumBy_statsDictAdd (f : CollectionStats → Nat) (r : ImageRecord)
    (d : Nat) (hbump : ∀ s, f (bumpStats s r) = f s + d)
    (hnew : f (newStats r.collection) = 0) :
    ∀ l, statsSumBy f (statsDictAdd l r) = statsSumBy f l + d := by
  intro l
  induction l with
  | nil => simp [statsDictAdd, statsSumBy, hbump, hnew]
  | cons p rest ih =>
    obtain ⟨n, s⟩ := p
    by_cases hn : n = r.collection
    · simp [statsDictAdd, if_pos hn, statsSumBy, hbump]
      omega
    · simp only [statsDictAdd, if_neg hn]
      simp only [statsSumBy, List.map_cons, List.sum_cons] at ih ⊢
      omega

theorem mem_statsDictAdd (P : CollectionStats → Prop) (r : ImageRecord)
    (hbump : ∀ s, P s → P (bumpStats s r)) (hfresh : P (bumpStats (newStats r.collection) r)) :
    ∀ l, (∀ p ∈ l, P p.2) → ∀ p ∈ statsDictAdd l r, P p.2 := by
  intro l
  induction l with
  | nil =>
    intro _ p hp
    simp only [statsDictAdd, List.mem_singleton] at hp
    subst hp; exact hfresh
  | cons q rest ih =>
    obtain ⟨n, s⟩ := q
    intro hall p hp
    by_cases hn : n = r.collection
    · simp only [statsDictAdd, if_pos hn, List.mem_cons] at hp
      rcases hp with hp | hp
      · subst hp; exact hbump s (hall (n, s) (List.mem_cons_self _ _))
      · exact hall p (List.mem_cons_of_mem _ hp)
    · simp only [statsDictAdd, if_neg hn, List.mem_cons] at hp
      rcases hp with hp | hp
      · subst hp; exact hall (n, s) (List.mem_cons_self _ _)
      · exact ih (fun q hq => hall q (List.mem_cons_of_mem _ hq)) p hp

end Pregen

namespace Pregen

/-- The statistics invariant of a manifest: every per-collection entry
balances, and the field sums over the dict match the totals computed
over the record list. -/
def statsInv (m : Manifest) : Prop :=
  (∀ p ∈ m.collection_stats,
      p.2.total_images = p.2.with_thumbnails + p.2.missing_thumbnails) ∧
  statsSumBy CollectionStats.total_images m.collection_stats = m.total_images ∧
  statsSumBy CollectionStats.with_thumbnails m.collection_stats = m.total_with_thumbnails ∧
  statsSumBy CollectionStats.missing_thumbnails m.collection_stats = m.total_missing_thumbnails

theorem bumpStats_total (s : CollectionStats) (r : ImageRecord) :
    (bumpStats s r).total_images = s.total_images + 1 := by
  unfold bumpStats
  by_cases h : r.thumbnail_exists <;> simp [h]

theorem bumpStats_with (s : CollectionStats) (r : ImageRecord) :
    (bumpStats s r).with_thumbnails =
      s.with_thumbnails + (if r.thumbnail_exists then 1 else 0) := by
  unfold bumpStats
  by_cases h : r.thumbnail_exists <;> simp [h]

theorem bumpStats_missing (s : CollectionStats) (r : ImageRecord) :
    (bumpStats s r).missing_thumbnails =
      s.missing_thumbnails + (if r.thumbnail_exists then 0 else 1) := by
  unfold bumpStats
  by_cases h : r.thumbnail_exists <;> simp [h]

theorem statsInv_add_record (m : Manifest) (r : ImageRecord) (h : statsInv m) :
    statsInv (m.add_record r) := by
  obtain ⟨hmem, htot, hwith, hmiss⟩ := h
  refine ⟨?_, ?_, ?_, ?_⟩
  · refine mem_statsDictAdd
      (fun s => s.total_images = s.with_thumbnails + s.missing_thumbnails)
      r ?_ ?_ m.collection_stats hmem
    · intro s hs
      show (bumpStats s r).total_images =
        (bumpStats s r).with_thumbnails + (bumpStats s r).missing_thumbnails
      rw [bumpStats_total, bumpStats_with, bumpStats_missing, hs]
      by_cases hex : r.thumbnail_exists <;> simp [hex] <;> omega
    · show (bumpStats (newStats r.collection) r).total_images =
        (bumpStats (newStats r.collection) r).with_thumbnails +
          (bumpStats (newStats r.collection) r).missing_thumbnails
      rw [bumpStats_total, bumpStats_with, bumpStats_missing]
      by_cases hex : r.thumbnail_exists <;> simp [newStats, hex]
  · rw [show (m.add_record r).collection_stats = statsDictAdd m.collection_stats r from rfl,
      statsSumBy_statsDictAdd _ r 1 (fun s => bumpStats_total s r) rfl, htot]
    simp [Manifest.add_record, Manifest.total_images]
  · rw [show (m.add_record r).collection_stats = statsDictAdd m.collection_stats r from rfl,
      statsSumBy_statsDictAdd _ r (if r.thumbnail_exists then 1 else 0)
        (fun s => bumpStats_with s r) rfl, hwith]
    simp only [Manifest.add_record, Manifest.total_with_thumbnails, List.filter_append]
    by_cases hex : r.thumbnail_exists <;> simp [hex]
  · rw [show (m.add_record r).collection_stats = statsDictAdd m.collection_stats r from rfl,
      statsSumBy_statsDictAdd _ r (if r.thumbnail_exists then 0 else 1)
        (fun s => bumpStats_missing s r) rfl, hmiss]
    simp only [Manifest.add_record, Manifest.total_missing_thumbnails, List.filter_append]
    by_cases hex : r.thumbnail_exists <;> simp [hex]

theorem statsInv_manifestFold (rs : List ImageRecord) :
    ∀ m, statsInv m → statsInv (manifestFold m rs) := by
  induction rs with
  | nil => intro m h; exact h
  | cons r rs ih =>
    intro m h
    exact ih (m.add_record r) (statsInv_add_record m r h)

/-- C1.  For every Manifest created empty (by `Manifest.create_new`) and
populated by any sequence of `add_record` calls, each per-collection
`CollectionStats` satisfies `total_images = with_thumbnails +
missing_thumbnails`, and the sums of `total_images`, `with_thumbnails`
and `missing_thumbnails` over all collection stats equal the
manifest-level totals computed over the record list. -/
theorem manifest_statistics_invariant (rs : List ImageRecord)
    (ep bk lr : Option Str) (pfx sty ca : Str) :
    (∀ p ∈ (manifestFold (Manifest.create_new ep bk pfx sty lr ca) rs).collection_stats,
        p.2.total_images = p.2.with_thumbnails + p.2.missing_thumbnails) ∧
    statsSumBy CollectionStats.total_images
        (manifestFold (Manifest.create_new ep bk pfx sty lr ca) rs).collection_stats =
      (manifestFold (Manifest.create_new ep bk pfx sty lr ca) rs).total_images ∧
    statsSumBy CollectionStats.with_thumbnails
        (manifestFold (Manifest.create_new ep bk pfx sty lr ca) rs).collection_stats =
      (manifestFold (Manifest.create_new ep bk pfx sty lr ca) rs).total_with_thumbnails ∧
    statsSumBy CollectionStats.missing_thumbnails
        (manifestFold (Manifest.create_new ep bk pfx sty lr ca) rs).collection_stats =
      (manifestFold (Manifest.create_new ep bk pfx sty lr ca) rs).total_missing_thumbnails := by
  have h0 : statsInv (Manifest.create_new ep bk pfx sty lr ca) := by
    refine ⟨?_, ?_, ?_, ?_⟩ <;>
      simp [Manifest.create_new, statsSumBy, Manifest.total_images,
        Manifest.total_with_thumbnails, Manifest.total_missing_thumbnails]
  exact statsInv_manifestFold rs _ h0

end Pregen

namespace Pregen

/-! ## Serialization (`to_dict` / `from_dict`)

The JSON dictionaries the code reads and writes are modelled as typed
records mirroring exactly the fields each `from_dict` accesses.  Fields
read through `data.get(...)` are `Option`s (`none` = absent key);
fields read by indexing are mandatory.  Thumbnail dict keys are the
decimal strings `str(scale)` produced by `to_dict` and parsed back with
`int(...)`. -/

/-- Dictionary shape of `ThumbnailInfo.to_dict` (`dataclasses.asdict`). -/
structure ThumbInfoDict where
  scale : Nat
  key : Str
  size : Nat
  modified : Str
deriving DecidableEq

/-- `ThumbnailInfo.to_dict`. -/
def ThumbnailInfo.to_dict (t : ThumbnailInfo) : ThumbInfoDict :=
  { scale := t.scale, key := t.key, size := t.size, modified := t.modified }

/-- `ThumbnailInfo.from_dict` (`cls(**data)`). -/
def ThumbnailInfo.from_dict (d : ThumbInfoDict) : ThumbnailInfo :=
  { scale := d.scale, key := d.key, size := d.size, modified := d.modified }

/-- Dictionary shape consumed by `ImageRecord.from_dict`, covering both
the current format and the legacy single-thumbnail format. -/
structure ImageRecordDict where
  original_key : Str
  original_size : Nat
  original_modified : Str
  base_thumbnail_key : Option Str := none
  thumbnail_key : Option Str := none
  collection : Str
  filename : Str
  thumbnails : Option (List (Str × ThumbInfoDict)) := none
  thumbnail_exists : Option Bool := none
  thumbnail_size : Option Nat := none
  thumbnail_modified : Option Str := none
deriving DecidableEq

/-- `ImageRecord.to_dict`. -/
def ImageRecord.to_dict (r : ImageRecord) : ImageRecordDict :=
  { original_key := r.original_key
    original_size := r.original_size
    original_modified := r.original_modified
    base_thumbnail_key := some r.base_thumbnail_key
    collection := r.collection
    filename := r.filename
    thumbnails := some (r.thumbnails.map (fun p => (natToDecimal p.1, p.2.to_dict))) }

/-- The legacy thumbnail key synthesized by `ImageRecord.from_dict`:
`base_key.replace('.', '_200.', 1) if '.' in base_key else base_key + "_200"`. -/
def legacyThumbKey (base_key : Str) : Str :=
  if '.' ∈ base_key then replaceFirst '.' (('_' :: natToDecimal 200) ++ ['.']) base_key
  else base_key ++ '_' :: natToDecimal 200

/-- `ImageRecord.from_dict`.  `base_key = data.get('base_thumbnail_key') or
data.get('thumbnail_key', '')` (Python `or`: `None` and `''` are falsy). -/
def ImageRecord.from_dict (d : ImageRecordDict) : ImageRecord :=
  let b1 := d.base_thumbnail_key.getD []
  let base_key := if b1 = [] then d.thumbnail_key.getD [] else b1
  let thumbs : List (Nat × ThumbnailInfo) :=
    match d.thumbnails with
    | some ts =>
      ts.foldl (fun acc p => dictInsert acc (decimalToNat p.1) (ThumbnailInfo.from_dict p.2)) []
    | none =>
      if d.thumbnail_exists.getD false then
        [(200, { scale := 200
                 key := legacyThumbKey base_key
                 size := d.thumbnail_size.getD 0
                 modified := d.thumbnail_modified.getD [] })]
      else []
  { original_key := d.original_key
    original_size := d.original_size
    original_modified := d.original_modified
    base_thumbnail_key := base_key
    collection := d.collection
    filename := d.filename
    thumbnails := thumbs }

/-- Dictionary shape of `CollectionStats.to_dict` (`dataclasses.asdict`). -/
structure CollectionStatsDict where
  name : Str
  total_images : Nat
  with_thumbnails : Nat
  missing_thumbnails : Nat
  total_original_bytes : Nat
  total_thumbnail_bytes : Nat
deriving DecidableEq

/-- `CollectionStats.to_dict`. -/
def CollectionStats.to_dict (s : CollectionStats) : CollectionStatsDict :=
  { name := s.name, total_images := s.total_images,
    with_thumbnails := s.with_thumbnails,
    missing_thumbnails := s.missing_thumbnails,
    total_original_bytes := s.total_original_bytes,
    total_thumbnail_bytes := s.total_thumbnail_bytes }

/-- `CollectionStats.from_dict` (`cls(**data)`). -/
def CollectionStats.from_dict (d : CollectionStatsDict) : CollectionStats :=
  { name := d.name, total_images := d.total_images,
    with_thumbnails := d.with_thumbnails,
    missing_thumbnails := d.missing_thumbnails,
    total_original_bytes := d.total_original_bytes,
    total_thumbnail_bytes := d.total_thumbnail_bytes }

/-- Dictionary shape consumed by `Manifest.from_dict`. -/
structure ManifestDict where
  created_at : Str
  storage_type : Option Str := none
  s3_endpoint : Option Str := none
  s3_bucket : Option Str := none
  s3_prefix : Option Str := none
  local_root : Option Str := none
  collections : Option (List Str) := none
  collection_stats : Option (List (Str × CollectionStatsDict)) := none
  records : Option (List ImageRecordDict) := none
  scan_duration_seconds : Option Int := none
deriving DecidableEq

/-- `Manifest.to_dict`. -/
def Manifest.to_dict (m : Manifest) : ManifestDict :=
  { created_at := m.created_at
    storage_type := some m.storage_type
    s3_endpoint := m.s3_endpoint
    s3_bucket := m.s3_bucket
    s3_prefix := some (Manifest.s3_prefix m)
    local_root := m.local_root
    collections := some m.collections
    collection_stats :=
      some (m.collection_stats.map (fun p => (p.1, p.2.to_dict)))
    records := some (m.records.map (fun r => r.to_dict))
    scan_duration_seconds := some m.scan_duration_seconds }

/-- `Manifest.from_dict`.  Absent keys fall back to the `data.get`
defaults of the source; `collection_stats` entries and `records` are
rebuilt in iteration order. -/
def Manifest.from_dict (d : ManifestDict) : Manifest :=
  { created_at := d.created_at
    s3_endpoint := d.s3_endpoint
    s3_bucket := d.s3_bucket
    s3_prefix := (d.s3_prefix).getD (("attachments").data)
    collections := d.collections.getD []
    scan_duration_seconds := d.scan_duration_seconds.getD 0
    storage_type := d.storage_type.getD (("s3").data)
    local_root := d.local_root
    collection_stats :=
      (d.collection_stats.getD []).foldl
        (fun acc p => dictInsert acc p.1 (CollectionStats.from_dict p.2)) []
    records := (d.records.getD []).map ImageRecord.from_dict }

/-- Well-formedness of the dict representations inside a manifest: every
dict modelled as an association list has pairwise-distinct keys (true of
every dict Python can hold). -/
def Manifest.WF (m : Manifest) : Prop :=
  (m.collection_stats.map Prod.fst).Nodup ∧
  ∀ r ∈ m.records, (r.thumbnails.map Prod.fst).Nodup

/-! Round-trip lemmas. -/

theorem dictInsert_eq_append {κ α : Type} [DecidableEq κ]
    (l : List (κ × α)) (k : κ) (v : α) (h : k ∉ l.map Prod.fst) :
    dictInsert l k v = l ++ [(k, v)] := by
  induction l with
  | nil => rfl
  | cons p rest ih =>
    obtain ⟨k', v'⟩ := p
    simp only [List.map_cons, List.mem_cons, not_or] at h
    have hne : ¬ k' = k := fun he => h.1 he.symm
    simp [dictInsert, if_neg hne, ih h.2]

theorem foldl_dictInsert_eq {κ α : Type} [DecidableEq κ] :
    ∀ (l acc : List (κ × α)), ((acc ++ l).map Prod.fst).Nodup →
    l.foldl (fun a p => dictInsert a p.1 p.2) acc = acc ++ l := by
  intro l
  induction l with
  | nil => intro acc _; simp
  | cons p rest ih =>
    intro acc hnd
    obtain ⟨k, v⟩ := p
    have hk : k ∉ acc.map Prod.fst := by
      intro hmem
      simp only [List.map_append, List.map_cons, List.nodup_append] at hnd
      exact hnd.2.2 hmem (List.mem_cons_self _ _)
    rw [List.foldl_cons]
    show List.foldl (fun a p => dictInsert a p.1 p.2) (dictInsert acc k v) rest = _
    rw [dictInsert_eq_append acc k v hk,
      ih (acc ++ [(k, v)]) (by simpa using hnd)]
    simp

theorem foldl_dictInsert_id {κ α : Type} [DecidableEq κ]
    (l : List (κ × α)) (hnd : (l.map Prod.fst).Nodup) :
    l.foldl (fun a p => dictInsert a p.1 p.2) [] = l := by
  simpa using foldl_dictInsert_eq l [] (by simpa using hnd)

end Pregen

namespace Pregen

theorem thumbnailInfo_from_to (t : ThumbnailInfo) :
    ThumbnailInfo.from_dict (ThumbnailInfo.to_dict t) = t := rfl

theorem imageRecord_from_to (r : ImageRecord)
    (hnd : (r.thumbnails.map Prod.fst).Nodup) :
    ImageRecord.from_dict (ImageRecord.to_dict r) = r := by
  obtain ⟨ok, os, om, bk, co, fn, th⟩ := r
  simp only at hnd
  unfold ImageRecord.from_dict ImageRecord.to_dict
  simp only [Option.getD_some]
  have hthumbs :
      (th.map (fun p => (natToDecimal p.1, p.2.to_dict))).foldl
        (fun acc p => dictInsert acc (decimalToNat p.1) (ThumbnailInfo.from_dict p.2)) []
        = th := by
    rw [List.foldl_map]
    have hfun :
        (fun (acc : List (Nat × ThumbnailInfo)) (p : Nat × ThumbnailInfo) =>
            dictInsert acc (decimalToNat (natToDecimal p.1))
              (ThumbnailInfo.from_dict p.2.to_dict)) =
          fun acc p => dictInsert acc p.1 p.2 := by
      funext acc p
      rw [decimalToNat_natToDecimal, thumbnailInfo_from_to]
    rw [hfun]
    exact foldl_dictInsert_id th hnd
  by_cases hb : bk = []
  · subst hb; simp [hthumbs]
  · simp [hb, hthumbs]

/-- C2.  Serialize→deserialize round trip: for every well-formed
Manifest (its dicts, as held by Python, have distinct keys),
`Manifest.from_dict (manifest.to_dict())` reproduces the manifest
exactly — in particular the record list (with each record's per-scale
thumbnail map) and the per-collection statistics are equal to the
original's; the scan duration (a float excluded by the claim) is
carried verbatim by the dict and is also preserved in this model. -/
theorem manifest_roundtrip (m : Manifest) (h : Manifest.WF m) :
    Manifest.from_dict (Manifest.to_dict m) = m := by
  obtain ⟨hstats, hrecs⟩ := h
  unfold Manifest.from_dict Manifest.to_dict
  simp only [Option.getD_some]
  have hcs :
      (m.collection_stats.map (fun p => (p.1, p.2.to_dict))).foldl
        (fun acc p => dictInsert acc p.1 (CollectionStats.from_dict p.2)) []
        = m.collection_stats := by
    rw [List.foldl_map]
    have hfun :
        (fun (acc : List (Str × CollectionStats)) (p : Str × CollectionStats) =>
            dictInsert acc p.1 (CollectionStats.from_dict p.2.to_dict)) =
          fun acc p => dictInsert acc p.1 p.2 := by
      funext acc p; rfl
    rw [hfun]
    exact foldl_dictInsert_id m.collection_stats hstats
  have hrs : (m.records.map (fun r => r.to_dict)).map ImageRecord.from_dict = m.records := by
    rw [List.map_map]
    have : ∀ r ∈ m.records, (ImageRecord.from_dict ∘ ImageRecord.to_dict) r = id r := by
      intro r hr
      exact imageRecord_from_to r (hrecs r hr)
    rw [List.map_congr_left this, List.map_id]
  rw [hcs, hrs]

/-- A concrete well-formed manifest used to witness the round-trip law. -/
def sampleManifest : Manifest :=
  { created_at := ("2025-01-01T00:00:00").data
    s3_endpoint := some (("http://minio:9000").data)
    s3_bucket := some (("assets").data)
    s3_prefix := ("attachments").data
    collections := [("botany").data]
    collection_stats :=
      [(("botany").data,
        { name := ("botany").data, total_images := 2, with_thumbnails := 1,
          missing_thumbnails := 1, total_original_bytes := 30,
          total_thumbnail_bytes := 3 })]
    records :=
      [{ original_key := ("attachments/botany/originals/x.jpg").data
         original_size := 10
         original_modified := ("t1").data
         base_thumbnail_key := ("attachments/botany/thumbnails/x.jpg").data
         collection := ("botany").data
         filename := ("x.jpg").data
         thumbnails :=
           [(200, { scale := 200, key := ("attachments/botany/thumbnails/x_200.jpg").data,
                    size := 3, modified := ("t2").data })] },
       { original_key := ("attachments/botany/originals/y.jpg").data
         original_size := 20
         original_modified := ("t3").data
         base_thumbnail_key := ("attachments/botany/thumbnails/y.jpg").data
         collection := ("botany").data
         filename := ("y.jpg").data }]
    scan_duration_seconds := 4
    storage_type := ("s3").data
    local_root := none }

/-- Witness for C2 at a concrete manifest. -/
theorem manifest_roundtrip_witness :
    Manifest.WF sampleManifest ∧
      Manifest.from_dict (Manifest.to_dict sampleManifest) = sampleManifest :=
  ⟨by constructor <;> decide, manifest_roundtrip sampleManifest (by constructor <;> decide)⟩

end Pregen

namespace Pregen

/-! ## Path manipulation and the thumbnail-key pattern (`pregen/scanner.py`)

`os.path.dirname` / `os.path.basename` / `os.path.join` (POSIX rules)
and the regex `^(.+)_(\d+)(\.[^.]+)$` used by
`Scanner.normalize_thumbnail_key` and `Scanner.extract_thumbnail_info`.
The regex model is exact for newline-free filenames; Python's `re`
gives `.` and `$` special newline behaviour, so the match is modelled
to require newline-free groups. -/

/-- `os.path.split(p)` (POSIX): split after the last `'/'`; the head
keeps its trailing slash only when it consists entirely of slashes. -/
def splitPath (p : Str) : Str × Str :=
  match rsplit1 '/' p with
  | none => ([], p)
  | some (before, after) =>
    let head := before ++ ['/']
    if head.all (fun c => c = '/') then (head, after)
    else (rstripSlash head, after)

/-- `os.path.join(head, tail)` (POSIX) for the shapes the scanner
produces (`tail` is a basename and never starts with `'/'` when
`head` is nonempty, but the general rule is modelled). -/
def pathJoin (head tail : Str) : Str :=
  match tail with
  | '/' :: _ => tail
  | _ =>
    if head = [] then tail
    else if head.getLast? = some '/' then head ++ tail
    else head ++ '/' :: tail

/-- Match of `^(.+)_(\d+)(\.[^.]+)$` against a (newline-free) filename,
returning the three groups `(uuid_part, scale_digits, dot_ext)`.
A match requires: a last `'.'` with a nonempty dot-free remainder `e`,
and, before it, a last `'_'` whose suffix is a nonempty digit string
with a nonempty group-1 before it.  Greedy group 1 makes the rightmost
`'_'` the only possible separator. -/
def matchThumb (fname : Str) : Option (Str × Str × Str) :=
  match rsplit1 '.' fname with
  | none => none
  | some (p, e) =>
    if e = [] ∨ '\n' ∈ e then none
    else
      match rsplit1 '_' p with
      | none => none
      | some (u, d) =>
        if u ≠ [] ∧ '\n' ∉ u ∧ d ≠ [] ∧ d.all Char.isDigit then
          some (u, d, '.' :: e)
        else none

/-- `Scanner.normalize_thumbnail_key`: strip the `_<scale>` suffix from
the basename when the filename matches the thumbnail pattern; any other
key is returned unchanged (the source's `Optional` return type never
actually yields `None`). -/
def normalize_thumbnail_key (thumb_key : Str) : Str :=
  let dn := (splitPath thumb_key).1
  let bn := (splitPath thumb_key).2
  match matchThumb bn with
  | some (u, _, dotext) => pathJoin dn (u ++ dotext)
  | none => thumb_key

/-- `Scanner.extract_thumbnail_info`: normalized key and scale of a
thumbnail key matching the pattern. -/
def extract_thumbnail_info (thumb_key : Str) : Option (Str × Nat) :=
  let dn := (splitPath thumb_key).1
  let bn := (splitPath thumb_key).2
  match matchThumb bn with
  | some (u, d, dotext) => some (pathJoin dn (u ++ dotext), decimalToNat d)
  | none => none

end Pregen

namespace Pregen

/-! Character facts about decimal digit strings. -/

theorem slash_not_mem_natToDecimal (n : Nat) : '/' ∉ natToDecimal n := by
  intro h
  have := mem_natToDecimal_isDigit n '/' h
  exact absurd this (by decide)

theorem dot_not_mem_natToDecimal (n : Nat) : '.' ∉ natToDecimal n := by
  intro h
  have := mem_natToDecimal_isDigit n '.' h
  exact absurd this (by decide)

theorem underscore_not_mem_natToDecimal (n : Nat) : '_' ∉ natToDecimal n := by
  intro h
  have := mem_natToDecimal_isDigit n '_' h
  exact absurd this (by decide)

/-! Structural lemmas about `splitPath`, `pathJoin`, `rstripSlash`. -/

theorem splitPath_no_slash (p : Str) (h : '/' ∉ p) : splitPath p = ([], p) := by
  simp [splitPath, rsplit1_eq_none_of_not_mem '/' p h]

theorem splitPath_append_slash (d1 t : Str) (h : '/' ∉ t) :
    splitPath (d1 ++ '/' :: t) =
      (if (d1 ++ ['/']).all (fun c => c = '/') then d1 ++ ['/']
       else rstripSlash (d1 ++ ['/']), t) := by
  simp only [splitPath, rsplit1_append_cons '/' d1 t h]
  by_cases hall : (d1 ++ ['/']).all (fun c => c = '/') <;> simp [hall]

theorem rstripSlash_append_slash (d1 : Str) :
    rstripSlash (d1 ++ ['/']) = rstripSlash d1 := by
  simp [rstripSlash, List.dropWhile]

theorem rstripSlash_eq_self (d1 : Str) (h : d1.getLast? ≠ some '/') :
    rstripSlash d1 = d1 := by
  cases hrev : d1.reverse with
  | nil =>
    have : d1 = [] := by simpa using congrArg List.reverse hrev
    simp [this, rstripSlash]
  | cons c rest =>
    have hc : d1.getLast? = some c := by
      rw [List.getLast?_eq_head?_reverse, hrev]
      rfl
    have hcs : ¬ c = '/' := fun he => h (by rw [hc, he])
    unfold rstripSlash
    rw [hrev, List.dropWhile_cons_of_neg (by simpa using hcs), ← hrev, List.reverse_reverse]

theorem pathJoin_nil (t : Str) : pathJoin [] t = t := by
  cases t with
  | nil => rfl
  | cons c rest =>
    by_cases hc : c = '/'
    · subst hc; rfl
    · simp only [pathJoin]
      split
      · rfl
      · simp

theorem pathJoin_slash_end (h t : Str) (hh : h.getLast? = some '/')
    (ht : ∀ c rest, t = c :: rest → c ≠ '/') : pathJoin h t = h ++ t := by
  have hne : h ≠ [] := by
    intro he; rw [he] at hh; exact Option.noConfusion hh
  cases t with
  | nil =>
    simp only [pathJoin]
    rw [if_neg hne, if_pos hh]
  | cons c rest =>
    have hc : c ≠ '/' := ht c rest rfl
    simp only [pathJoin]
    split
    · rename_i heq
      injection heq with h1 h2
      exact absurd h1 hc
    · rw [if_neg hne, if_pos hh]

theorem pathJoin_no_slash_end (h t : Str) (hne : h ≠ []) (hh : h.getLast? ≠ some '/')
    (ht : ∀ c rest, t = c :: rest → c ≠ '/') : pathJoin h t = h ++ '/' :: t := by
  cases t with
  | nil =>
    simp only [pathJoin]
    rw [if_neg hne, if_neg hh]
  | cons c rest =>
    have hc : c ≠ '/' := ht c rest rfl
    simp only [pathJoin]
    split
    · rename_i heq
      injection heq with h1 h2
      exact absurd h1 hc
    · rw [if_neg hne, if_neg hh]

/-- The regex match on a derived filename `s_<digits>.e`. -/
theorem matchThumb_derived (s digits e : Str)
    (hs : s ≠ []) (hsn : '\n' ∉ s)
    (hdig : digits ≠ []) (hdigd : ∀ c ∈ digits, c.isDigit = true)
    (he : e ≠ []) (hed : '.' ∉ e) (hen : '\n' ∉ e) :
    matchThumb ((s ++ '_' :: digits) ++ '.' :: e) = some (s, digits, '.' :: e) := by
  have hud : '_' ∉ digits := by
    intro h
    have := hdigd '_' h
    exact absurd this (by decide)
  unfold matchThumb
  rw [rsplit1_append_cons '.' (s ++ '_' :: digits) e hed]
  simp only
  rw [if_neg (by simp [he, hen])]
  rw [rsplit1_append_cons '_' s digits hud]
  simp only
  rw [if_pos ⟨hs, hsn, hdig, by simpa [List.all_eq_true] using hdigd⟩]

end Pregen

namespace Pregen

/-- Normalizing a derived key `d ++ s ++ "_" ++ str(n) ++ "." ++ e`
recovers `d ++ s ++ "." ++ e`, for a well-formed stem, extension and
directory part. -/
theorem normalize_derived (d s e : Str) (n : Nat)
    (hs : s ≠ []) (hsn : '\n' ∉ s) (hss : '/' ∉ s)
    (he : e ≠ []) (hed : '.' ∉ e) (hes : '/' ∉ e) (hen : '\n' ∉ e)
    (hdir : d = [] ∨ ∃ d1, d = d1 ++ ['/'] ∧
      ((d1 ++ ['/']).all (fun c => c = '/') ∨ d1.getLast? ≠ some '/')) :
    normalize_thumbnail_key (d ++ ((s ++ '_' :: natToDecimal n) ++ '.' :: e))
      = d ++ s ++ '.' :: e := by
  have hmatch := matchThumb_derived s (natToDecimal n) e hs hsn
    (natToDecimal_ne_nil n) (fun c hc => mem_natToDecimal_isDigit n c hc) he hed hen
  have hTslash : '/' ∉ (s ++ '_' :: natToDecimal n) ++ '.' :: e := by
    simp only [List.mem_append, List.mem_cons, not_or]
    exact ⟨⟨hss, by decide, slash_not_mem_natToDecimal n⟩, by decide, hes⟩
  have hhead : ∀ c rest, s ++ '.' :: e = c :: rest → c ≠ '/' := by
    intro c rest hcr
    cases s with
    | nil => exact absurd rfl hs
    | cons a s' =>
      injection hcr with h1 h2
      intro hsl
      exact hss (by rw [h1, hsl]; exact List.mem_cons_self _ _)
  rcases hdir with hd0 | ⟨d1, hd1, hcond⟩
  · subst hd0
    simp only [List.nil_append]
    unfold normalize_thumbnail_key
    rw [splitPath_no_slash _ hTslash]
    simp only [hmatch]
    rw [pathJoin_nil]
  · subst hd1
    have hkey : (d1 ++ ['/']) ++ ((s ++ '_' :: natToDecimal n) ++ '.' :: e)
        = d1 ++ '/' :: ((s ++ '_' :: natToDecimal n) ++ '.' :: e) := by
      simp
    unfold normalize_thumbnail_key
    rw [hkey, splitPath_append_slash d1 _ hTslash]
    simp only [hmatch]
    by_cases hall : (d1 ++ ['/']).all (fun c => c = '/')
    · rw [if_pos hall]
      have hlast : (d1 ++ ['/']).getLast? = some '/' := by
        simp [List.getLast?_concat]
      rw [pathJoin_slash_end _ _ hlast hhead]
      simp
    · rw [if_neg hall]
      have hgl : d1.getLast? ≠ some '/' := by
        rcases hcond with hcond | hcond
        · exact absurd hcond hall
        · exact hcond
      have hd1ne : d1 ≠ [] := by
        intro hnil
        rw [hnil] at hall
        exact hall (by decide)
      rw [rstripSlash_append_slash, rstripSlash_eq_self d1 hgl,
        pathJoin_no_slash_end d1 _ hd1ne hgl hhead]
      simp

/-- Extracting info from a derived key `d ++ s ++ "_" ++ str(n) ++ "." ++ e`
yields the base key and the scale. -/
theorem extract_derived (d s e : Str) (n : Nat)
    (hs : s ≠ []) (hsn : '\n' ∉ s) (hss : '/' ∉ s)
    (he : e ≠ []) (hed : '.' ∉ e) (hes : '/' ∉ e) (hen : '\n' ∉ e)
    (hdir : d = [] ∨ ∃ d1, d = d1 ++ ['/'] ∧
      ((d1 ++ ['/']).all (fun c => c = '/') ∨ d1.getLast? ≠ some '/')) :
    extract_thumbnail_info (d ++ ((s ++ '_' :: natToDecimal n) ++ '.' :: e))
      = some (d ++ s ++ '.' :: e, n) := by
  have hmatch := matchThumb_derived s (natToDecimal n) e hs hsn
    (natToDecimal_ne_nil n) (fun c hc => mem_natToDecimal_isDigit n c hc) he hed hen
  have hTslash : '/' ∉ (s ++ '_' :: natToDecimal n) ++ '.' :: e := by
    simp only [List.mem_append, List.mem_cons, not_or]
    exact ⟨⟨hss, by decide, slash_not_mem_natToDecimal n⟩, by decide, hes⟩
  have hhead : ∀ c rest, s ++ '.' :: e = c :: rest → c ≠ '/' := by
    intro c rest hcr
    cases s with
    | nil => exact absurd rfl hs
    | cons a s' =>
      injection hcr with h1 h2
      intro hsl
      exact hss (by rw [h1, hsl]; exact List.mem_cons_self _ _)
  rcases hdir with hd0 | ⟨d1, hd1, hcond⟩
  · subst hd0
    simp only [List.nil_append]
    unfold extract_thumbnail_info
    rw [splitPath_no_slash _ hTslash]
    simp only [hmatch]
    rw [pathJoin_nil, decimalToNat_natToDecimal]
  · subst hd1
    have hkey : (d1 ++ ['/']) ++ ((s ++ '_' :: natToDecimal n) ++ '.' :: e)
        = d1 ++ '/' :: ((s ++ '_' :: natToDecimal n) ++ '.' :: e) := by
      simp
    unfold extract_thumbnail_info
    rw [hkey, splitPath_append_slash d1 _ hTslash]
    simp only [hmatch]
    by_cases hall : (d1 ++ ['/']).all (fun c => c = '/')
    · rw [if_pos hall]
      have hlast : (d1 ++ ['/']).getLast? = some '/' := by
        simp [List.getLast?_concat]
      rw [pathJoin_slash_end _ _ hlast hhead, decimalToNat_natToDecimal]
      simp
    · rw [if_neg hall]
      have hgl : d1.getLast? ≠ some '/' := by
        rcases hcond with hcond | hcond
        · exact absurd hcond hall
        · exact hcond
      have hd1ne : d1 ≠ [] := by
        intro hnil
        rw [hnil] at hall
        exact hall (by decide)
      rw [rstripSlash_append_slash, rstripSlash_eq_self d1 hgl,
        pathJoin_no_slash_end d1 _ hd1ne hgl hhead, decimalToNat_natToDecimal]
      simp

/-- A record whose base thumbnail key is `".jpg"`: it contains an
extension (the rightmost dot-separated component `"jpg"`), yet the
derived key `"_200.jpg"` does not match the thumbnail pattern (the
regex requires a nonempty group before the `'_'`), so normalization
does not recover the base key. -/
def emptyStemRecord : ImageRecord :=
  { original_key := ("attachments/c/originals/.jpg").data
    original_size := 1
    original_modified := ("t").data
    base_thumbnail_key := (".jpg").data
    collection := ("c").data
    filename := (".jpg").data }

/-- C3 counterexample: for the base key `".jpg"` (which contains a
rightmost `'.'`-separated component) and the valid scale 200, deriving
and then normalizing does NOT recover the base key, refuting the claim
as stated. -/
theorem derive_then_normalize_cex :
    '.' ∈ emptyStemRecord.base_thumbnail_key ∧
    0 < 200 ∧
    (emptyStemRecord.get_thumbnail_key 200).map normalize_thumbnail_key
      ≠ some emptyStemRecord.base_thumbnail_key := by
  refine ⟨by decide, by decide, ?_⟩
  decide

/-- C3 amended.  For every base thumbnail key of the form
`d ++ s ++ "." ++ e` — nonempty stem `s` (newline- and slash-free),
nonempty extension `e` free of `'.'`, `'/'` and newlines, and a
directory part `d` that is empty or ends in a single `'/'` (or is all
slashes) — and every positive scale, deriving the scale-suffixed key
via `ImageRecord.get_thumbnail_key` and then applying
`normalize_thumbnail_key` recovers exactly the original base key. -/
theorem derive_then_normalize_recovers (r : ImageRecord) (d s e : Str) (scale : Nat)
    (hscale : 0 < scale)
    (hbase : r.base_thumbnail_key = d ++ s ++ '.' :: e)
    (hs : s ≠ []) (hsn : '\n' ∉ s) (hss : '/' ∉ s)
    (he : e ≠ []) (hed : '.' ∉ e) (hes : '/' ∉ e) (hen : '\n' ∉ e)
    (hdir : d = [] ∨ ∃ d1, d = d1 ++ ['/'] ∧
      ((d1 ++ ['/']).all (fun c => c = '/') ∨ d1.getLast? ≠ some '/')) :
    (r.get_thumbnail_key scale).map normalize_thumbnail_key
      = some r.base_thumbnail_key := by
  unfold ImageRecord.get_thumbnail_key
  rw [hbase]
  have hsplit : rsplit1 '.' (d ++ s ++ '.' :: e) = some (d ++ s, e) := by
    have h := rsplit1_append_cons '.' (d ++ s) e hed
    simpa [List.append_assoc] using h
  rw [hsplit]
  simp only [Option.map_some']
  have hnorm := normalize_derived d s e scale hs hsn hss he hed hes hen hdir
  rw [show d ++ s ++ '_' :: natToDecimal scale ++ '.' :: e
      = d ++ ((s ++ '_' :: natToDecimal scale) ++ '.' :: e) from by simp, hnorm]

/-- A well-formed record used to witness the amended C3. -/
def wellFormedRecord : ImageRecord :=
  { original_key := ("attachments/botany/originals/ab.jpg").data
    original_size := 10
    original_modified := ("t").data
    base_thumbnail_key := ("attachments/botany/thumbnails/ab.jpg").data
    collection := ("botany").data
    filename := ("ab.jpg").data }

/-- Witness for the amended C3 at a concrete record and scale. -/
theorem derive_then_normalize_recovers_witness :
    (wellFormedRecord.get_thumbnail_key 200).map normalize_thumbnail_key
      = some wellFormedRecord.base_thumbnail_key :=
  derive_then_normalize_recovers wellFormedRecord
    (("attachments/botany/thumbnails/").data) (("ab").data) (("jpg").data) 200
    (by decide) (by decide) (by decide) (by decide) (by decide) (by decide)
    (by decide) (by decide) (by decide)
    (Or.inr ⟨(("attachments/botany/thumbnails").data), by decide, Or.inr (by decide)⟩)

end Pregen

namespace Pregen

/-! ## Generator (`pregen/generator.py`)

The storage client and the thumbnail codec are external collaborators;
their calls are modelled by a `GenEnv` of deterministic functions that
either return a value or raise (`Except`).  Storage side effects are
collected in an operation trace so that frame conditions (dry run) and
the storage updates (idempotence) can be stated. -/

/-- Python truthiness of the `limit` arguments (`None` and `0` are
falsy). -/
def pyTruthy : Option Nat → Bool
  | none => false
  | some n => decide (n ≠ 0)

/-- `GenerationStats` (without the wall-clock fields, which no claim
constrains). -/
structure GenerationStats where
  total_to_process : Nat := 0
  processed : Nat := 0
  skipped : Nat := 0
  errors : Nat := 0
  bytes_generated : Nat := 0
  error_details : List Str := []
deriving DecidableEq

/-- External I/O of a generation run: `s3.download_object`, the
thumbnail codec `thumb_gen.generate(data, ext)`, and
`s3.upload_object`.  `Except` failures model raised exceptions; the
error string is the exception text. -/
structure GenEnv where
  download : Str → Except Str (List Nat)
  transcode : List Nat → Str → Except Str (List Nat × Str)
  upload : Str → List Nat → Str → Except Str Unit

/-- One storage call made by a generation run.  A failed upload is
recorded with `ok := false` and leaves storage unchanged. -/
inductive StorageOp where
  | download (key : Str)
  | upload (key : Str) (data : List Nat) (content_type : Str) (ok : Bool)
deriving DecidableEq

/-- `os.path.splitext(p)` (POSIX): the extension is the suffix from the
last `'.'` of the basename, empty when that dot is at the start of a
run of leading dots (e.g. `".jpg"` has no extension). -/
def splitext (p : Str) : Str × Str :=
  match rsplit1 '.' p with
  | none => (p, [])
  | some (root, ex) =>
    match rsplit1 '/' p with
    | none =>
      if root.any (fun c => c ≠ '.') then (root, '.' :: ex) else (p, [])
    | some (_, bn) =>
      match rsplit1 '.' bn with
      | none => (p, [])
      | some (stem, _) =>
        if stem.any (fun c => c ≠ '.') then (root, '.' :: ex) else (p, [])

/-- Python truthiness of an optional list argument (`None` and `[]` are
falsy). -/
def pyTruthyList : Option (List Str) → Bool
  | none => false
  | some l => !l.isEmpty

/-- `Generator._get_records_to_process`: the iteration with the
`past_resume_point` latch.  `cursor` is only consulted while the latch
is unset. -/
def recordsToProcessGo (target : Nat) (collections : Option (List Str)) (cursor : Str) :
    Bool → List ImageRecord → List ImageRecord
  | _, [] => []
  | past, r :: rs =>
    if pyTruthyList collections && !(collections.getD []).contains r.collection then
      recordsToProcessGo target collections cursor past rs
    else if r.has_thumbnail target then
      recordsToProcessGo target collections cursor past rs
    else if !past then
      if strLe cursor r.filename then r :: recordsToProcessGo target collections cursor true rs
      else recordsToProcessGo target collections cursor past rs
    else r :: recordsToProcessGo target collections cursor past rs

/-- `Generator._get_records_to_process(manifest, collections, resume_from)`. -/
def getRecordsToProcess (target : Nat) (collections : Option (List Str))
    (resume_from : Option Str) (records : List ImageRecord) : List ImageRecord :=
  match resume_from with
  | none => recordsToProcessGo target collections [] true records
  | some cur => recordsToProcessGo target collections cur false records

end Pregen

namespace Pregen

/-- Error message recorded by `_process_record` on an exception
(`f"Error processing {filename}: {e}"`). -/
def errorMsg (r : ImageRecord) (e : Str) : Str :=
  (("Error processing ").data) ++ r.filename ++ ((": ").data) ++ e

/-- Outcome of the `try` block of `_process_record`: a raise before any
upload call, a raise inside the upload call, or success. -/
inductive PipelineResult where
  | failEarly (msg : Str)
  | failUpload (msg : Str) (thumb_key : Str) (thumb_data : List Nat) (content_type : Str)
  | success (thumb_key : Str) (thumb_data : List Nat) (content_type : Str)
deriving DecidableEq

/-- The `try` block of `_process_record`: download → transcode →
derive the scale-suffixed key (whose `rsplit` raises `ValueError` on a
dot-free base key) → upload. -/
def runPipeline (env : GenEnv) (target : Nat) (r : ImageRecord) : PipelineResult :=
  match env.download r.original_key with
  | .error e => .failEarly (errorMsg r e)
  | .ok image_data =>
    match env.transcode image_data (splitext r.filename).2 with
    | .error e => .failEarly (errorMsg r e)
    | .ok (thumb_data, content_type) =>
      match r.get_thumbnail_key target with
      | none => .failEarly (errorMsg r (("ValueError").data))
      | some thumb_key =>
        match env.upload thumb_key thumb_data content_type with
        | .error e => .failUpload (errorMsg r e) thumb_key thumb_data content_type
        | .ok _ => .success thumb_key thumb_data content_type

/-- `Generator._process_record`: dry run only counts; otherwise the
`try` block runs.  Any raise increments the error count and appends one
message; success increments the processed count and the byte total.
The second component is the trace of storage calls made (the download
call happens in every non-dry branch; the upload call only once a key
was derived). -/
def processRecord (env : GenEnv) (target : Nat) (dryRun : Bool)
    (stats : GenerationStats) (r : ImageRecord) : GenerationStats × List StorageOp :=
  if dryRun then
    ({ stats with processed := stats.processed + 1 }, [])
  else
    match runPipeline env target r with
    | .failEarly msg =>
      ({ stats with errors := stats.errors + 1
                    error_details := stats.error_details ++ [msg] },
       [.download r.original_key])
    | .failUpload msg thumb_key thumb_data content_type =>
      ({ stats with errors := stats.errors + 1
                    error_details := stats.error_details ++ [msg] },
       [.download r.original_key, .upload thumb_key thumb_data content_type false])
    | .success thumb_key thumb_data content_type =>
      ({ stats with processed := stats.processed + 1
                    bytes_generated := stats.bytes_generated + thumb_data.length },
       [.download r.original_key, .upload thumb_key thumb_data content_type true])

/-- The candidate-collection loop of `generate_from_manifest`: append
each record, stopping right after the limit-th one (`if limit and
count >= limit: break`). -/
def collectWithLimit (limit : Option Nat) : Nat → List ImageRecord → List ImageRecord
  | _, [] => []
  | count, r :: rs =>
    if pyTruthy limit && decide (limit.getD 0 ≤ count + 1) then [r]
    else r :: collectWithLimit limit (count + 1) rs

/-- The processing loop of `generate_from_manifest` (the stop flag is
fixed for the run: execution is single-threaded and nothing inside the
loop sets it; the cadence sleep has no observable effect here). -/
def genLoop (env : GenEnv) (target : Nat) (dryRun stop : Bool) :
    List ImageRecord → GenerationStats → List StorageOp → GenerationStats × List StorageOp
  | [], stats, ops => (stats, ops)
  | r :: rs, stats, ops =>
    if stop then (stats, ops)
    else
      let so := processRecord env target dryRun stats r
      genLoop env target dryRun stop rs so.1 (ops ++ so.2)

/-- `Generator.generate_from_manifest(manifest, collections, resume_from,
limit)` with a fixed stop flag, returning the final statistics and the
trace of storage calls. -/
def generateFromManifest (env : GenEnv) (target : Nat) (dryRun stop : Bool)
    (m : Manifest) (collections : Option (List Str)) (resume_from : Option Str)
    (limit : Option Nat) : GenerationStats × List StorageOp :=
  if stop then ({ total_to_process := 0 }, [])
  else
    let cands := collectWithLimit limit 0
      (getRecordsToProcess target collections resume_from m.records)
    genLoop env target dryRun stop cands { total_to_process := cands.length } []

end Pregen

namespace Pregen

/-- The collection and target-scale filters of
`Generator._get_records_to_process` (everything except the resume
cursor). -/
def passesFilters (target : Nat) (collections : Option (List Str)) (r : ImageRecord) : Bool :=
  !(pyTruthyList collections && !(collections.getD []).contains r.collection) &&
    !r.has_thumbnail target

theorem passesFilters_false_left (target : Nat) (colls : Option (List Str)) (r : ImageRecord)
    (h1 : (pyTruthyList colls && !(colls.getD []).contains r.collection) = true) :
    passesFilters target colls r = false := by
  unfold passesFilters
  rw [h1]
  rfl

theorem passesFilters_false_right (target : Nat) (colls : Option (List Str)) (r : ImageRecord)
    (h2 : r.has_thumbnail target = true) :
    passesFilters target colls r = false := by
  unfold passesFilters
  rw [h2]
  simp

theorem passesFilters_true (target : Nat) (colls : Option (List Str)) (r : ImageRecord)
    (h1 : (pyTruthyList colls && !(colls.getD []).contains r.collection) = false)
    (h2 : r.has_thumbnail target = false) :
    passesFilters target colls r = true := by
  unfold passesFilters
  rw [h1, h2]
  rfl

theorem recordsToProcessGo_latched (target : Nat) (colls : Option (List Str))
    (cursor : Str) (rs : List ImageRecord) :
    recordsToProcessGo target colls cursor true rs
      = rs.filter (passesFilters target colls) := by
  induction rs with
  | nil => rfl
  | cons r rs ih =>
    simp only [recordsToProcessGo]
    by_cases h1 : (pyTruthyList colls && !(colls.getD []).contains r.collection) = true
    · have hpf := passesFilters_false_left target colls r h1
      rw [if_pos h1, ih, List.filter_cons_of_neg (by simp [hpf])]
    · rw [if_neg h1]
      have h1f : (pyTruthyList colls && !(colls.getD []).contains r.collection) = false :=
        Bool.eq_false_iff.mpr h1
      by_cases h2 : r.has_thumbnail target = true
      · have hpf := passesFilters_false_right target colls r h2
        rw [if_pos h2, ih, List.filter_cons_of_neg (by simp [hpf])]
      · have h2f : r.has_thumbnail target = false := Bool.eq_false_iff.mpr h2
        have hpf := passesFilters_true target colls r h1f h2f
        rw [if_neg h2, if_neg (by decide : ¬ (!true) = true), ih,
          List.filter_cons_of_pos (by simp [hpf])]

theorem recordsToProcessGo_sorted (target : Nat) (colls : Option (List Str))
    (cur : Str) (rs : List ImageRecord)
    (hsorted : (rs.filter (passesFilters target colls)).Pairwise
        (fun a b => strLe a.filename b.filename = true)) :
    recordsToProcessGo target colls cur false rs
      = rs.filter (fun r => passesFilters target colls r && strLe cur r.filename) := by
  induction rs with
  | nil => rfl
  | cons r rs ih =>
    simp only [recordsToProcessGo]
    by_cases h1 : (pyTruthyList colls && !(colls.getD []).contains r.collection) = true
    · have hpf := passesFilters_false_left target colls r h1
      rw [List.filter_cons_of_neg (by simp [hpf])] at hsorted
      rw [if_pos h1, ih hsorted, List.filter_cons_of_neg (by simp [hpf])]
    · rw [if_neg h1]
      have h1f : (pyTruthyList colls && !(colls.getD []).contains r.collection) = false :=
        Bool.eq_false_iff.mpr h1
      by_cases h2 : r.has_thumbnail target = true
      · have hpf := passesFilters_false_right target colls r h2
        rw [List.filter_cons_of_neg (by simp [hpf])] at hsorted
        rw [if_pos h2, ih hsorted, List.filter_cons_of_neg (by simp [hpf])]
      · have h2f : r.has_thumbnail target = false := Bool.eq_false_iff.mpr h2
        have hpf := passesFilters_true target colls r h1f h2f
        rw [List.filter_cons_of_pos (by simp [hpf])] at hsorted
        rw [if_neg h2, if_pos (by decide : (!false) = true)]
        by_cases hcur : strLe cur r.filename = true
        · rw [if_pos hcur, recordsToProcessGo_latched,
            List.filter_cons_of_pos (by simp [hpf, hcur])]
          congr 1
          apply List.filter_congr
          intro x hx
          by_cases hpx : passesFilters target colls x = true
          · have hxmem : x ∈ rs.filter (passesFilters target colls) :=
              List.mem_filter.mpr ⟨hx, hpx⟩
            have hrx : strLe r.filename x.filename = true :=
              (List.pairwise_cons.mp hsorted).1 x hxmem
            have hcx : strLe cur x.filename = true := strLe_trans _ _ _ hcur hrx
            simp [hpx, hcx]
          · have hpxf : passesFilters target colls x = false := Bool.eq_false_iff.mpr hpx
            simp [hpxf]
        · have hcurf : strLe cur r.filename = false := Bool.eq_false_iff.mpr hcur
          rw [if_neg hcur, List.filter_cons_of_neg (by simp [hcurf]),
            ih (List.pairwise_cons.mp hsorted).2]

end Pregen

namespace Pregen

/-- A record with filename `"z.jpg"` and no thumbnails. -/
def recZ : ImageRecord :=
  { original_key := ("attachments/c/originals/z.jpg").data
    original_size := 1
    original_modified := ("t").data
    base_thumbnail_key := ("attachments/c/thumbnails/z.jpg").data
    collection := ("c").data
    filename := ("z.jpg").data }

/-- A record with filename `"a.jpg"` and no thumbnails. -/
def recA : ImageRecord :=
  { recZ with
    original_key := ("attachments/c/originals/a.jpg").data
    base_thumbnail_key := ("attachments/c/thumbnails/a.jpg").data
    filename := ("a.jpg").data }

/-- A record with filename `"m.jpg"` and no thumbnails. -/
def recM : ImageRecord :=
  { recZ with
    original_key := ("attachments/c/originals/m.jpg").data
    base_thumbnail_key := ("attachments/c/thumbnails/m.jpg").data
    filename := ("m.jpg").data }

/-- C4 counterexample.  Over the (unsorted) manifest records
`[z.jpg, a.jpg]`, both missing the target scale, the cursor `"m"`
latches on `z.jpg` and the Generator then also yields `a.jpg`, whose
filename is `< "m"` — so "a record is included iff its filename is
`>= resume_from`" is false as stated for arbitrary manifests. -/
theorem resume_cursor_iff_cex :
    getRecordsToProcess 200 none (some (("m").data)) [recZ, recA] = [recZ, recA] ∧
    recA ∈ getRecordsToProcess 200 none (some (("m").data)) [recZ, recA] ∧
    strLe (("m").data) recA.filename = false := by
  refine ⟨by decide, by decide, by decide⟩

/-- C4 amended.  For every target scale, collection filter and resume
cursor, the Generator's candidate list is exactly the records passing
the collection and missing-target-scale filters whose filename is
`>= resume_from` — provided the records surviving those filters appear
in nondecreasing filename order (as a scan of a filename-sorted listing
produces).  (Scenario E — cursor `"m"` over sorted `[a.jpg, m.jpg,
z.jpg]` yielding `[m.jpg, z.jpg]` — is the witness instance.) -/
theorem resume_cursor_filter (target : Nat) (colls : Option (List Str))
    (cur : Str) (records : List ImageRecord)
    (hsorted : (records.filter (passesFilters target colls)).Pairwise
        (fun a b => strLe a.filename b.filename = true)) :
    getRecordsToProcess target colls (some cur) records
      = records.filter (fun r => passesFilters target colls r && strLe cur r.filename) :=
  recordsToProcessGo_sorted target colls cur records hsorted

/-- Witness for the amended C4: Scenario E. -/
theorem resume_cursor_filter_witness :
    getRecordsToProcess 200 none (some (("m").data)) [recA, recM, recZ] = [recM, recZ] := by
  rw [resume_cursor_filter 200 none (("m").data) [recA, recM, recZ] (by decide)]
  decide

end Pregen

namespace Pregen

/-! ## Storage model and Scanner (`pregen/s3_client.py`, `pregen/scanner.py`)

An S3 bucket is a list of objects in listing order.  `list_objects_v2`
with a `Prefix` filters by key prefix; `S3Client.list_originals` /
`list_thumbnails` additionally filter by the image-extension
allow-list.  Python's `str.lower` is modelled on ASCII (the only range
that can equal one of the allow-listed extensions). -/

/-- One stored object (`{'key', 'size', 'last_modified'}`). -/
structure StorageObj where
  key : Str
  size : Nat
  last_modified : Str
deriving DecidableEq

/-- An S3 bucket plus the `S3Config` fields the scanner reads
(`pfx` models `config.prefix`). -/
structure Storage where
  endpoint : Str
  bucket : Str
  pfx : Str
  objects : List StorageObj
deriving DecidableEq

/-- Fuel-driven body of `replaceSubAll`; the fuel is the input length,
which strictly bounds the recursion depth. -/
def replaceSubAllAux (p0 : Char) (ps : Str) (repl : Str) : Nat → Str → Str
  | 0, s => s
  | _ + 1, [] => []
  | fuel + 1, a :: s =>
    if strStartsWith (a :: s) (p0 :: ps) then
      repl ++ replaceSubAllAux p0 ps repl fuel (List.drop ps.length s)
    else
      a :: replaceSubAllAux p0 ps repl fuel s

/-- Replace every (non-overlapping, left-to-right) occurrence of the
pattern `p0 :: ps` by `repl`.  Models Python `s.replace(old, new)` for
a nonempty `old`. -/
def replaceSubAll (p0 : Char) (ps : Str) (repl : Str) (s : Str) : Str :=
  replaceSubAllAux p0 ps repl s.length s

/-- `S3Client.IMAGE_EXTENSIONS`. -/
def IMAGE_EXTENSIONS : List Str :=
  [(".jpg").data, (".jpeg").data, (".png").data, (".gif").data,
   (".tif").data, (".tiff").data, (".bmp").data]

/-- `os.path.splitext(key)[1].lower() in IMAGE_EXTENSIONS`. -/
def isImageKey (k : Str) : Bool :=
  IMAGE_EXTENSIONS.contains (asciiLower (splitext k).2)

/-- `list_objects_v2(Prefix=pre)`: the objects whose key starts with
`pre`, in listing order. -/
def listWithPre (st : Storage) (pre : Str) : List StorageObj :=
  st.objects.filter (fun o => strStartsWith o.key pre)

/-- `S3Client.list_originals(collection)` (no resume cursor: the
scanner never passes one): objects under
`{prefix}/{collection}/originals/` with an allow-listed extension. -/
def list_originals (st : Storage) (collection : Str) : List StorageObj :=
  (listWithPre st (st.pfx ++ '/' :: collection ++ (("/originals/").data))).filter
    (fun o => isImageKey o.key)

/-- `S3Client.list_thumbnails(collection)`. -/
def list_thumbnails (st : Storage) (collection : Str) : List StorageObj :=
  (listWithPre st (st.pfx ++ '/' :: collection ++ (("/thumbnails/").data))).filter
    (fun o => isImageKey o.key)

/-- `S3Client.get_thumbnail_key`: `original_key.replace('/originals/',
'/thumbnails/')` (all occurrences). -/
def clientThumbKey (k : Str) : Str :=
  replaceSubAll '/' (("originals/").data) (("/thumbnails/").data) k

/-- `S3Client.list_collections`: the distinct first path segments under
`{prefix}/` (S3 `CommonPrefixes` with delimiter `'/'`; only keys with a
further `'/'` contribute, empty segments are skipped). -/
def collectionOf (st : Storage) (k : Str) : Option Str :=
  if strStartsWith k (st.pfx ++ ['/']) then
    let rest := k.drop (st.pfx.length + 1)
    if rest.any (fun c => c = '/') then
      let seg := rest.takeWhile (fun c => c ≠ '/')
      if seg = [] then none else some seg
    else none
  else none

/-- Fuel-driven body of `dedupKeepFirst`. -/
def dedupKeepFirstAux : Nat → List Str → List Str
  | 0, _ => []
  | _ + 1, [] => []
  | fuel + 1, x :: xs => x :: dedupKeepFirstAux fuel (xs.filter (fun y => y ≠ x))

/-- Distinct values in first-occurrence order. -/
def dedupKeepFirst (l : List Str) : List Str :=
  dedupKeepFirstAux l.length l

/-- `S3Client.list_collections()`. -/
def list_collections (st : Storage) : List Str :=
  dedupKeepFirst (st.objects.filterMap (fun o => collectionOf st o.key))

/-- Inner value of the thumbnail index
(`{'key', 'size', 'last_modified'}`). -/
structure ThumbIndexEntry where
  key : Str
  size : Nat
  last_modified : Str
deriving DecidableEq

/-- Nested dict insert `index[k1][k2] = v` (creating `index[k1]`
first when absent). -/
def dictInsert2 {κ₁ κ₂ α : Type} [DecidableEq κ₁] [DecidableEq κ₂]
    (l : List (κ₁ × List (κ₂ × α))) (k1 : κ₁) (k2 : κ₂) (v : α) :
    List (κ₁ × List (κ₂ × α)) :=
  dictInsert l k1 (dictInsert ((dictLookup l k1).getD []) k2 v)

/-- `Scanner._load_thumbnail_index(collection)`: normalized key →
scale → entry; keys that do not match the pattern are bucketed under
scale 0 keyed by themselves. -/
def loadThumbnailIndex (st : Storage) (collection : Str) :
    List (Str × List (Nat × ThumbIndexEntry)) :=
  (list_thumbnails st collection).foldl
    (fun index thumb =>
      match extract_thumbnail_info thumb.key with
      | some (norm, scale) =>
        dictInsert2 index norm scale ⟨thumb.key, thumb.size, thumb.last_modified⟩
      | none =>
        dictInsert2 index thumb.key 0 ⟨thumb.key, thumb.size, thumb.last_modified⟩)
    []

/-- Populate a record's thumbnails from the looked-up index bucket. -/
def addThumbsFromIndex (r : ImageRecord) (scales : List (Nat × ThumbIndexEntry)) :
    ImageRecord :=
  scales.foldl
    (fun rec p => rec.add_thumbnail ⟨p.1, p.2.key, p.2.size, p.2.last_modified⟩) r

/-- `Scanner._populate_thumbnails_ondemand`: list (at most 100) objects
under the prefix `root + "_"` of the base key and add every one that
matches the thumbnail pattern — without checking that its normalized
key is this record's base key. -/
def populate_thumbnails_ondemand (st : Storage) (r : ImageRecord) : ImageRecord :=
  let root := (splitext r.base_thumbnail_key).1
  ((listWithPre st (root ++ ['_'])).take 100).foldl
    (fun rec obj =>
      match extract_thumbnail_info obj.key with
      | some (_, scale) =>
        rec.add_thumbnail ⟨scale, obj.key, obj.size, obj.last_modified⟩
      | none => rec)
    r

/-- The per-original loop of `Scanner._scan_collection`, with the
`already_scanned + count >= limit` break check before each original. -/
def scanOriginalsLoop (st : Storage) (collection : Str) (use_ondemand : Bool)
    (index : List (Str × List (Nat × ThumbIndexEntry)))
    (limit : Option Nat) (already_scanned : Nat) :
    List StorageObj → Manifest → Nat → Manifest × Nat
  | [], m, count => (m, count)
  | o :: os, m, count =>
    if pyTruthy limit && decide (limit.getD 0 ≤ already_scanned + count) then (m, count)
    else
      let record0 : ImageRecord :=
        { original_key := o.key
          original_size := o.size
          original_modified := o.last_modified
          base_thumbnail_key := clientThumbKey o.key
          collection := collection
          filename := (splitPath o.key).2 }
      let record :=
        if use_ondemand then populate_thumbnails_ondemand st record0
        else addThumbsFromIndex record0
          ((dictLookup index (clientThumbKey o.key)).getD [])
      scanOriginalsLoop st collection use_ondemand index limit already_scanned os
        (m.add_record record) (count + 1)

/-- `Scanner._scan_collection`: chooses the on-demand strategy when a
limit is given and is `<= 100` (note: this includes `limit = 0`), else
builds the full thumbnail index; returns the updated manifest and the
number of images scanned. -/
def scanCollection (st : Storage) (m : Manifest) (collection : Str)
    (limit : Option Nat) (already_scanned : Nat) : Manifest × Nat :=
  let use_ondemand := match limit with | none => false | some n => decide (n ≤ 100)
  let index := if use_ondemand then [] else loadThumbnailIndex st collection
  scanOriginalsLoop st collection use_ondemand index limit already_scanned
    (list_originals st collection) m 0

/-- The per-collection loop of `Scanner.scan` with the `limit_reached`
flag (a set flag `break`s out of the loop). -/
def scanLoop (st : Storage) (limit : Option Nat) :
    List Str → Manifest → Nat → Bool → Manifest
  | [], m, _, _ => m
  | c :: cs, m, total_scanned, limit_reached =>
    if limit_reached then m
    else
      let mc := scanCollection st m c limit total_scanned
      let total' := total_scanned + mc.2
      scanLoop st limit cs mc.1 total'
        (pyTruthy limit && decide (limit.getD 0 ≤ total'))

/-- `Scanner.scan(collections, limit)` against S3 storage (the local
variant differs only in the provenance fields; `local_client.py` is not
part of the scanned sources).  The scan duration is left at its opaque
zero value. -/
def scan (st : Storage) (collections : Option (List Str)) (limit : Option Nat)
    (created_at : Str) : Manifest :=
  let m0 := Manifest.create_new (some st.endpoint) (some st.bucket) st.pfx
    (("s3").data) none created_at
  let target_collections :=
    if pyTruthyList collections then collections.getD [] else list_collections st
  scanLoop st limit target_collections
    { m0 with collections := target_collections } 0 false

/-- `S3Client.upload_object` effect on the bucket: overwrite in place
or append. -/
def putObject (st : Storage) (k : Str) (data : List Nat) (now : Str) : Storage :=
  if (st.objects.map StorageObj.key).contains k then
    { st with objects :=
        st.objects.map (fun o => if o.key = k then ⟨o.key, data.length, now⟩ else o) }
  else
    { st with objects := st.objects ++ [⟨k, data.length, now⟩] }

/-- Apply a generation run's storage-call trace to the bucket:
successful uploads write; downloads and failed uploads do not. -/
def applyOps (st : Storage) (ops : List StorageOp) (now : Str) : Storage :=
  ops.foldl
    (fun s op =>
      match op with
      | .download _ => s
      | .upload k data _ true => putObject s k data now
      | .upload _ _ _ false => s)
    st

end Pregen

namespace Pregen

/-- Does the `try` block of `_process_record` raise for this record? -/
def itemFails (env : GenEnv) (target : Nat) (r : ImageRecord) : Bool :=
  match runPipeline env target r with
  | .failEarly _ => true
  | .failUpload _ _ _ _ => true
  | .success _ _ _ => false

/-- The environment of Scenario C: the download of `recA`'s original is
forced to fail, everything else succeeds. -/
def envScenC : GenEnv :=
  { download := fun k =>
      if k = recA.original_key then .error (("Download failed").data) else .ok [1]
    transcode := fun _ _ => .ok ([2, 3], ("image/jpeg").data)
    upload := fun _ _ _ => .ok () }

/-- The manifest of Scenario C: two candidates missing the target
scale. -/
def manifestScenC : Manifest :=
  { created_at := ("now").data
    s3_endpoint := none
    s3_bucket := none
    s3_prefix := ("attachments").data
    collections := [("c").data]
    records := [recA, recM]
    storage_type := ("s3").data }

/-- C6.  In a non-dry-run pass, a candidate whose download, transcode,
key derivation or upload raises leaves the processed count unchanged
and increments the error count by exactly one, appending exactly one
error message; and (Scenario C) a run over two candidates with one
forced download failure continues past the failure and ends with
`processed = 1`, `errors = 1` and one error detail recorded. -/
theorem per_item_error_isolation :
    (∀ (env : GenEnv) (target : Nat) (stats : GenerationStats) (r : ImageRecord),
      itemFails env target r = true →
        ((processRecord env target false stats r).1.errors = stats.errors + 1 ∧
         (processRecord env target false stats r).1.processed = stats.processed ∧
         ∃ msg, (processRecord env target false stats r).1.error_details
           = stats.error_details ++ [msg])) ∧
    ((generateFromManifest envScenC 200 false false manifestScenC none none none).1.processed
        = 1 ∧
     (generateFromManifest envScenC 200 false false manifestScenC none none none).1.errors
        = 1 ∧
     (generateFromManifest envScenC 200 false false manifestScenC none none none).1.error_details.length
        = 1) := by
  constructor
  · intro env target stats r hfail
    unfold processRecord
    unfold itemFails at hfail
    rw [if_neg (by simp : ¬ (false : Bool) = true)]
    cases hpl : runPipeline env target r with
    | failEarly msg =>
      exact ⟨rfl, rfl, msg, rfl⟩
    | failUpload msg tk td ct =>
      exact ⟨rfl, rfl, msg, rfl⟩
    | success tk td ct =>
      rw [hpl] at hfail
      exact Bool.noConfusion hfail
  · refine ⟨by decide, by decide, by decide⟩

/-- Witness for the universally quantified part of C6 at the
Scenario-C environment and record. -/
theorem per_item_error_isolation_witness :
    itemFails envScenC 200 recA = true ∧
    ((processRecord envScenC 200 false { total_to_process := 2 } recA).1.errors = 1 ∧
     (processRecord envScenC 200 false { total_to_process := 2 } recA).1.processed = 0 ∧
     ∃ msg, (processRecord envScenC 200 false { total_to_process := 2 } recA).1.error_details
       = [] ++ [msg]) :=
  ⟨by decide,
   per_item_error_isolation.1 envScenC 200 { total_to_process := 2 } recA (by decide)⟩

/-- C7.  With `dry_run = true`, `generate_from_manifest` makes no
storage calls at all (empty trace — applying it leaves any bucket
unchanged) and its processed count is exactly the number of candidate
records missing the target scale after the collection/resume filters
and the limit. -/
theorem dry_run_frame (env : GenEnv) (target : Nat) (m : Manifest)
    (colls : Option (List Str)) (resume_from : Option Str) (limit : Option Nat)
    (st : Storage) (now : Str) :
    (generateFromManifest env target true false m colls resume_from limit).2 = [] ∧
    applyOps st (generateFromManifest env target true false m colls resume_from limit).2 now
      = st ∧
    (generateFromManifest env target true false m colls resume_from limit).1.processed
      = (collectWithLimit limit 0 (getRecordsToProcess target colls resume_from m.records)).length ∧
    (generateFromManifest env target true false m colls resume_from limit).1.errors = 0 := by
  have hloop : ∀ (rs : List ImageRecord) (stats : GenerationStats) (ops : List StorageOp),
      genLoop env target true false rs stats ops
        = ({ stats with processed := stats.processed + rs.length }, ops) := by
    intro rs
    induction rs with
    | nil => intro stats ops; simp [genLoop]
    | cons r rs ih =>
      intro stats ops
      rw [show genLoop env target true false (r :: rs) stats ops
          = genLoop env target true false rs
              ({ stats with processed := stats.processed + 1 }) (ops ++ []) from by
        simp [genLoop, processRecord]]
      rw [ih]
      have harith : stats.processed + 1 + rs.length = stats.processed + (r :: rs).length := by
        simp only [List.length_cons]
        omega
      rw [harith, List.append_nil]
  unfold generateFromManifest
  rw [if_neg (by simp : ¬ (false : Bool) = true)]
  simp only [hloop]
  refine ⟨by simp, by simp [applyOps], by simp, by simp⟩

end Pregen

namespace Pregen

/-- The collections a scan actually walks: the caller's truthy list, or
the discovered ones. -/
def targetCollections (st : Storage) (collections : Option (List Str)) : List Str :=
  if pyTruthyList collections then collections.getD [] else list_collections st

/-- Total number of originals the storage offers in the given
collection sequence (a duplicated collection is walked twice). -/
def availableOriginals (st : Storage) (cs : List Str) : Nat :=
  (cs.map (fun c => (list_originals st c).length)).sum

theorem add_record_length (m : Manifest) (r : ImageRecord) :
    (m.add_record r).records.length = m.records.length + 1 := by
  simp [Manifest.add_record]

theorem scanOriginalsLoop_spec (st : Storage) (c : Str) (u : Bool)
    (idx : List (Str × List (Nat × ThumbIndexEntry))) (k a : Nat) (hk : k ≠ 0) :
    ∀ (os : List StorageObj) (m : Manifest) (count : Nat),
      (scanOriginalsLoop st c u idx (some k) a os m count).2
          = count + min os.length (k - (a + count)) ∧
      (scanOriginalsLoop st c u idx (some k) a os m count).1.records.length
          = m.records.length + min os.length (k - (a + count)) := by
  intro os
  induction os with
  | nil =>
    intro m count
    simp [scanOriginalsLoop]
  | cons o os ih =>
    intro m count
    simp only [scanOriginalsLoop]
    have hpt : pyTruthy (some k) = true := by simp [pyTruthy, hk]
    by_cases hstop : k ≤ a + count
    · rw [if_pos (by simp [hpt, hstop])]
      have : k - (a + count) = 0 := by omega
      simp [this]
    · rw [if_neg (by simp [hpt]; omega)]
      obtain ⟨h1, h2⟩ := ih (m.add_record _) (count + 1)
      refine ⟨?_, ?_⟩
      · rw [h1]
        simp only [List.length_cons]
        omega
      · rw [h2, add_record_length]
        simp only [List.length_cons]
        omega

theorem scanCollection_spec (st : Storage) (m : Manifest) (c : Str) (k a : Nat)
    (hk : k ≠ 0) :
    (scanCollection st m c (some k) a).2
        = min (list_originals st c).length (k - a) ∧
    (scanCollection st m c (some k) a).1.records.length
        = m.records.length + min (list_originals st c).length (k - a) := by
  unfold scanCollection
  simpa using scanOriginalsLoop_spec st c _ _ k a hk (list_originals st c) m 0

theorem scanLoop_spec (st : Storage) (k : Nat) (hk : k ≠ 0) :
    ∀ (cs : List Str) (m : Manifest) (total : Nat), total ≤ k →
      (scanLoop st (some k) cs m total (pyTruthy (some k) && decide (k ≤ total))).records.length
        = m.records.length + min (availableOriginals st cs) (k - total) := by
  intro cs
  induction cs with
  | nil =>
    intro m total htot
    simp [scanLoop, availableOriginals]
  | cons c cs ih =>
    intro m total htot
    have hpt : pyTruthy (some k) = true := by simp [pyTruthy, hk]
    simp only [scanLoop, Option.getD_some]
    by_cases hdone : k ≤ total
    · rw [if_pos (by simp [hpt, hdone])]
      have : k - total = 0 := by omega
      simp [this]
    · rw [if_neg (by simp [hpt]; omega)]
      obtain ⟨h1, h2⟩ := scanCollection_spec st m c k total hk
      have htot' : total + (scanCollection st m c (some k) total).2 ≤ k := by
        rw [h1]; omega
      have := ih (scanCollection st m c (some k) total).1
        (total + (scanCollection st m c (some k) total).2) htot'
      rw [this, h2, h1]
      simp only [availableOriginals, List.map_cons, List.sum_cons]
      have hA : min (list_originals st c).length (k - total) ≤ k - total :=
        Nat.min_le_right _ _
      omega

/-- C8.  For every limit `k >= 1` passed to `Scanner.scan`, the
produced manifest holds exactly `min k (number of available originals
across the scanned collections)` records — the bound is cumulative
across collections and scanning stops mid-collection the instant it is
reached. -/
theorem scan_limit_bound (st : Storage) (colls : Option (List Str)) (k : Nat)
    (ca : Str) (hk : 1 ≤ k) :
    (scan st colls (some k) ca).records.length
      = min k (availableOriginals st (targetCollections st colls)) := by
  have hk0 : k ≠ 0 := by omega
  have hfalse : (false : Bool) = (pyTruthy (some k) && decide (k ≤ 0)) := by
    have h0 : decide (k ≤ 0) = false := decide_eq_false (by omega)
    simp [h0]
    intro _
    omega
  unfold scan
  rw [show (if pyTruthyList colls then colls.getD [] else list_collections st)
      = targetCollections st colls from rfl]
  rw [hfalse, scanLoop_spec st k hk0 (targetCollections st colls) _ 0 (by omega)]
  simp only [Manifest.create_new, List.length_nil, Nat.zero_add, Nat.sub_zero]
  rw [Nat.min_comm]

/-- A bucket with three originals across two collections, used to
witness the limit bound. -/
def limitStorage : Storage :=
  { endpoint := ("e").data
    bucket := ("b").data
    pfx := ("attachments").data
    objects :=
      [⟨("attachments/c1/originals/a.jpg").data, 1, ("t").data⟩,
       ⟨("attachments/c1/originals/b.jpg").data, 2, ("t").data⟩,
       ⟨("attachments/c2/originals/c.jpg").data, 3, ("t").data⟩] }

/-- Witness for C8: limit 2 over 3 available originals yields exactly 2
records, stopping mid-collection. -/
theorem scan_limit_bound_witness :
    (scan limitStorage (some [("c1").data, ("c2").data]) (some 2) (("now").data)).records.length
      = min 2 (availableOriginals limitStorage
          (targetCollections limitStorage (some [("c1").data, ("c2").data]))) :=
  scan_limit_bound limitStorage (some [("c1").data, ("c2").data]) 2 (("now").data)
    (by decide)

end Pregen

namespace Pregen

/-- A bucket whose collection `c` has one original and one legacy,
unscaled thumbnail whose key equals the record's base thumbnail key. -/
def legacyStorage : Storage :=
  { endpoint := ("e").data
    bucket := ("b").data
    pfx := ("attachments").data
    objects :=
      [⟨("attachments/c/originals/a.jpg").data, 10, ("t1").data⟩,
       ⟨("attachments/c/thumbnails/a.jpg").data, 3, ("t3").data⟩] }

/-- C10 counterexample.  `Scanner.scan` with `limit=0` does NOT behave
as if no limit were supplied: `limit=0` selects the on-demand strategy
(`limit is not None and limit <= 100`), which misses the legacy
unscaled thumbnail that the full index buckets under scale 0 — the two
scans produce different manifests (with different coverage statistics)
over the same storage. -/
theorem scan_limit_zero_cex :
    ((scan legacyStorage (some [("c").data]) none (("now").data)).records.map
        (fun r => r.thumbnail_exists)) = [true] ∧
    ((scan legacyStorage (some [("c").data]) (some 0) (("now").data)).records.map
        (fun r => r.thumbnail_exists)) = [false] ∧
    scan legacyStorage (some [("c").data]) (some 0) (("now").data)
      ≠ scan legacyStorage (some [("c").data]) none (("now").data) := by
  refine ⟨by decide, by decide, by decide⟩

theorem collectWithLimit_falsy (limit : Option Nat) (h : pyTruthy limit = false) :
    ∀ (count : Nat) (xs : List ImageRecord), collectWithLimit limit count xs = xs := by
  intro count xs
  induction xs generalizing count with
  | nil => rfl
  | cons x xs ih =>
    simp only [collectWithLimit, h, Bool.false_and, Bool.false_eq_true, if_false]
    rw [ih]

theorem foldl_preserves_original_key {α : Type} (g : ImageRecord → α → ImageRecord)
    (hg : ∀ r x, (g r x).original_key = r.original_key) :
    ∀ (l : List α) (r : ImageRecord), (l.foldl g r).original_key = r.original_key := by
  intro l
  induction l with
  | nil => intro r; rfl
  | cons x xs ih =>
    intro r
    rw [List.foldl_cons, ih (g r x), hg r x]

theorem populate_ondemand_original_key (st : Storage) (r : ImageRecord) :
    (populate_thumbnails_ondemand st r).original_key = r.original_key := by
  unfold populate_thumbnails_ondemand
  apply foldl_preserves_original_key
  intro r' obj
  cases extract_thumbnail_info obj.key with
  | none => rfl
  | some info => rfl

theorem addThumbsFromIndex_original_key (r : ImageRecord)
    (scales : List (Nat × ThumbIndexEntry)) :
    (addThumbsFromIndex r scales).original_key = r.original_key := by
  unfold addThumbsFromIndex
  apply foldl_preserves_original_key
  intro r' p
  rfl

theorem scanOriginalsLoop_falsy (st : Storage) (c : Str) (u : Bool)
    (idx : List (Str × List (Nat × ThumbIndexEntry))) (limit : Option Nat)
    (a : Nat) (h : pyTruthy limit = false) :
    ∀ (os : List StorageObj) (m : Manifest) (count : Nat),
      (scanOriginalsLoop st c u idx limit a os m count).2 = count + os.length ∧
      (scanOriginalsLoop st c u idx limit a os m count).1.records.map
          ImageRecord.original_key
        = m.records.map ImageRecord.original_key ++ os.map StorageObj.key := by
  intro os
  induction os with
  | nil => intro m count; simp [scanOriginalsLoop]
  | cons o os ih =>
    intro m count
    simp only [scanOriginalsLoop, h, Bool.false_and, Bool.false_eq_true, if_false]
    obtain ⟨h1, h2⟩ := ih (m.add_record _) (count + 1)
    refine ⟨by rw [h1]; simp only [List.length_cons]; omega, ?_⟩
    rw [h2]
    have hrec : ∀ rec : ImageRecord,
        (m.add_record rec).records.map ImageRecord.original_key
          = m.records.map ImageRecord.original_key ++ [rec.original_key] := by
      intro rec
      simp [Manifest.add_record]
    rw [hrec]
    have hkey :
        (if u then
            populate_thumbnails_ondemand st
              { original_key := o.key, original_size := o.size,
                original_modified := o.last_modified,
                base_thumbnail_key := clientThumbKey o.key, collection := c,
                filename := (splitPath o.key).2 }
          else
            addThumbsFromIndex
              { original_key := o.key, original_size := o.size,
                original_modified := o.last_modified,
                base_thumbnail_key := clientThumbKey o.key, collection := c,
                filename := (splitPath o.key).2 }
              ((dictLookup idx (clientThumbKey o.key)).getD [])).original_key = o.key := by
      by_cases hu : u
      · rw [if_pos hu, populate_ondemand_original_key]
      · rw [if_neg hu, addThumbsFromIndex_original_key]
    rw [hkey]
    simp

theorem scanLoop_falsy (st : Storage) (limit : Option Nat)
    (h : pyTruthy limit = false) :
    ∀ (cs : List Str) (m : Manifest) (total : Nat),
      (scanLoop st limit cs m total false).records.map ImageRecord.original_key
        = m.records.map ImageRecord.original_key
          ++ (cs.map (fun c => (list_originals st c).map StorageObj.key)).flatten := by
  intro cs
  induction cs with
  | nil => intro m total; simp [scanLoop]
  | cons c cs ih =>
    intro m total
    simp only [scanLoop, Bool.false_eq_true, if_false, h, Bool.false_and]
    rw [ih]
    unfold scanCollection
    obtain ⟨_, h2⟩ := scanOriginalsLoop_falsy st c _ _ limit total h (list_originals st c) m 0
    rw [h2]
    simp

/-- C10 amended.  `limit=0` is falsy, so no bound is applied anywhere:
the Generator behaves exactly as with no limit, and the Scanner scans
every available original (same originals, in the same order, as an
unlimited scan).  However — unlike the claim's "behaves as if no limit
were supplied" — `Scanner.scan` with `limit=0` switches to the
on-demand thumbnail strategy (`limit <= 100`), so the per-record
thumbnail data of the two scans can differ (see the counterexample). -/
theorem limit_zero_no_bound :
    (∀ (env : GenEnv) (target : Nat) (dryRun stop : Bool) (m : Manifest)
        (colls : Option (List Str)) (resume_from : Option Str),
      generateFromManifest env target dryRun stop m colls resume_from (some 0)
        = generateFromManifest env target dryRun stop m colls resume_from none) ∧
    (∀ (st : Storage) (colls : Option (List Str)) (ca : Str),
      (scan st colls (some 0) ca).records.map ImageRecord.original_key
        = (scan st colls none ca).records.map ImageRecord.original_key ∧
      (scan st colls (some 0) ca).records.length
        = (scan st colls none ca).records.length) := by
  constructor
  · intro env target dryRun stop m colls resume_from
    unfold generateFromManifest
    rw [collectWithLimit_falsy (some 0) (by decide),
      collectWithLimit_falsy none (by decide)]
  · intro st colls ca
    have hmap : (scan st colls (some 0) ca).records.map ImageRecord.original_key
        = (scan st colls none ca).records.map ImageRecord.original_key := by
      unfold scan
      rw [scanLoop_falsy st (some 0) (by decide),
        scanLoop_falsy st none (by decide)]
    refine ⟨hmap, ?_⟩
    have := congrArg List.length hmap
    simpa using this

end Pregen

namespace Pregen

/-- A legacy-format record dict (no `thumbnails` mapping,
`thumbnail_exists` true) whose key holds two dots. -/
def legacyDict : ImageRecordDict :=
  { original_key := ("attachments/c/originals/a.b.jpg").data
    original_size := 5
    original_modified := ("t").data
    thumbnail_key := some (("a.b.jpg").data)
    collection := ("c").data
    filename := ("a.b.jpg").data
    thumbnail_exists := some true
    thumbnail_size := some 7
    thumbnail_modified := some (("tm").data) }

/-- C9 counterexample.  Loading the legacy dict with base key
`"a.b.jpg"` yields the scale-200 key `"a_200.b.jpg"` (the code
substitutes at the FIRST `'.'`), not `"a.b_200.jpg"` (the extension
replacement the claim states, i.e. `get_thumbnail_key 200`). -/
theorem legacy_from_dict_cex :
    (ImageRecord.from_dict legacyDict).thumbnails
      = [(200, { scale := 200, key := ("a_200.b.jpg").data, size := 7,
                 modified := ("tm").data })] ∧
    (ImageRecord.from_dict legacyDict).get_thumbnail_key 200
      = some (("a.b_200.jpg").data) ∧
    (("a_200.b.jpg").data : Str) ≠ ("a.b_200.jpg").data := by
  refine ⟨by decide, by decide, by decide⟩

theorem replaceFirst_append (c : Char) (repl u v : Str) (hu : c ∉ u) :
    replaceFirst c repl (u ++ c :: v) = u ++ repl ++ v := by
  induction u with
  | nil => simp [replaceFirst]
  | cons a u ih =>
    simp only [List.mem_cons, not_or] at hu
    have ha : ¬ a = c := fun hac => hu.1 hac.symm
    simp [replaceFirst, ha, ih hu.2]

/-- C9 amended.  A legacy-shaped dict (no `thumbnails` mapping,
`thumbnail_exists` true) loads to a record whose thumbnail map holds
exactly one entry, at scale 200, carrying the legacy size and modified
values (with defaults 0 / `""`), and whose key is the base key with
`_200.` substituted at the FIRST `'.'` (`legacyThumbKey`); that key
equals the extension-replacement form of the claim exactly when the
base key's only dot is the extension separator (second conjunct). -/
theorem legacy_from_dict_scale200 (d : ImageRecordDict)
    (hthumbs : d.thumbnails = none) (hex : d.thumbnail_exists = some true) :
    ((ImageRecord.from_dict d).thumbnails
      = [(200,
          { scale := 200
            key := legacyThumbKey (ImageRecord.from_dict d).base_thumbnail_key
            size := d.thumbnail_size.getD 0
            modified := d.thumbnail_modified.getD [] })]) ∧
    (∀ (u v : Str), '.' ∉ u → '.' ∉ v →
      legacyThumbKey (u ++ '.' :: v) = (u ++ '_' :: natToDecimal 200) ++ '.' :: v) := by
  constructor
  · unfold ImageRecord.from_dict
    rw [hthumbs, hex]
    simp
  · intro u v hu hv
    unfold legacyThumbKey
    rw [if_pos (by simp)]
    rw [replaceFirst_append '.' _ u v hu]
    simp

/-- Witness for the amended C9 at the concrete legacy dict. -/
theorem legacy_from_dict_scale200_witness :
    (ImageRecord.from_dict legacyDict).thumbnails
      = [(200,
          { scale := 200
            key := legacyThumbKey (ImageRecord.from_dict legacyDict).base_thumbnail_key
            size := legacyDict.thumbnail_size.getD 0
            modified := legacyDict.thumbnail_modified.getD [] })] :=
  (legacy_from_dict_scale200 legacyDict (by decide) (by decide)).1

end Pregen

namespace Pregen

/-! ## Groundwork for the scan→generate→rescan→generate composition -/

theorem rsplit1_none_sound (c : Char) :
    ∀ (s : Str), rsplit1 c s = none → c ∉ s := by
  intro s
  induction s with
  | nil => intro _ h; exact List.not_mem_nil c h
  | cons a s ih =>
    intro h
    simp only [rsplit1] at h
    cases hrec : rsplit1 c s with
    | some pq => rw [hrec] at h; exact Option.noConfusion h
    | none =>
      rw [hrec] at h
      by_cases hac : a = c
      · rw [if_pos hac] at h; exact Option.noConfusion h
      · rw [if_neg hac] at h
        intro hmem
        rcases List.mem_cons.mp hmem with hc | hc
        · exact hac hc.symm
        · exact ih hrec hc

theorem rsplit1_sound (c : Char) :
    ∀ (s p q : Str), rsplit1 c s = some (p, q) → s = p ++ c :: q ∧ c ∉ q := by
  intro s
  induction s with
  | nil => intro p q h; exact Option.noConfusion h
  | cons a s ih =>
    intro p q h
    simp only [rsplit1] at h
    cases hrec : rsplit1 c s with
    | some pq =>
      obtain ⟨p', q'⟩ := pq
      rw [hrec] at h
      simp only [Option.some.injEq, Prod.mk.injEq] at h
      obtain ⟨hp, hq⟩ := h
      obtain ⟨hs, hcq⟩ := ih p' q' hrec
      subst hp
      subst hq
      subst hs
      exact ⟨rfl, hcq⟩
    | none =>
      rw [hrec] at h
      by_cases hac : a = c
      · rw [if_pos hac] at h
        simp only [Option.some.injEq, Prod.mk.injEq] at h
        obtain ⟨hp, hq⟩ := h
        subst hp
        subst hq
        subst hac
        exact ⟨rfl, rsplit1_none_sound a s hrec⟩
      · rw [if_neg hac] at h
        exact Option.noConfusion h

end Pregen

namespace Pregen

theorem ssw_refl_append (u y : Str) : strStartsWith (u ++ y) u = true := by
  induction u with
  | nil => cases y <;> rfl
  | cons a u ih => simp [strStartsWith, ih]

theorem ssw_mem (s p : Str) (h : strStartsWith s p = true) : ∀ x ∈ p, x ∈ s := by
  induction p generalizing s with
  | nil => intro x hx; exact absurd hx (List.not_mem_nil x)
  | cons b p ih =>
    cases s with
    | nil => exact Bool.noConfusion h
    | cons a s =>
      simp only [strStartsWith, Bool.and_eq_true, decide_eq_true_eq] at h
      intro x hx
      rcases List.mem_cons.mp hx with hx | hx
      · subst hx
        rw [h.1]
        exact List.mem_cons_self _ _
      · exact List.mem_cons_of_mem _ (ih s h.2 x hx)

theorem ssw_append_right (u p y : Str) (h : strStartsWith u p = true) :
    strStartsWith (u ++ y) p = true := by
  induction p generalizing u with
  | nil => cases u ++ y <;> rfl
  | cons b p ih =>
    cases u with
    | nil => exact Bool.noConfusion h
    | cons a u =>
      simp only [strStartsWith, Bool.and_eq_true] at h ⊢
      exact ⟨h.1, ih u h.2⟩

theorem ssw_of_append_le (u x p : Str) (h : strStartsWith (u ++ x) p = true)
    (hl : p.length ≤ u.length) : strStartsWith u p = true := by
  induction p generalizing u with
  | nil => cases u <;> rfl
  | cons b p ih =>
    cases u with
    | nil => simp at hl
    | cons a u =>
      simp only [List.cons_append, strStartsWith, Bool.and_eq_true] at h ⊢
      simp only [List.length_cons, Nat.succ_le_succ_iff] at hl
      exact ⟨h.1, ih u h.2 hl⟩

theorem getLast?_cons_of_ne_nil (a : Char) (l : Str) (h : l ≠ []) :
    (a :: l).getLast? = l.getLast? := by
  cases l with
  | nil => exact absurd rfl h
  | cons b l => simp [List.getLast?_cons_cons]

/-- If a pattern ending in `'/'` is a prefix of `root ++ T` where `T`
is slash-free, it is already a prefix of `root`. -/
theorem ssw_append_no_slash (T : Str) (hT : '/' ∉ T) :
    ∀ (q root : Str), q.getLast? = some '/' →
      strStartsWith (root ++ T) q = true → strStartsWith root q = true := by
  intro q
  induction q with
  | nil => intro root hq _; exact Option.noConfusion hq
  | cons qc q' ih =>
    intro root hq hs
    cases root with
    | nil =>
      exfalso
      simp only [List.nil_append] at hs
      have hmem : '/' ∈ qc :: q' := by
        obtain ⟨hne, heq⟩ :=
          List.mem_getLast?_eq_getLast (l := qc :: q') (x := '/') (Option.mem_def.mpr hq)
        rw [heq]
        exact List.getLast_mem hne
      exact hT (ssw_mem T (qc :: q') hs '/' hmem)
    | cons rc root' =>
      simp only [List.cons_append, strStartsWith, Bool.and_eq_true] at hs ⊢
      refine ⟨hs.1, ?_⟩
      by_cases hq'nil : q' = []
      · subst hq'nil
        cases root' <;> rfl
      · have hlast := getLast?_cons_of_ne_nil qc q' hq'nil
        rw [hlast] at hq
        exact ih root' hq hs.2

end Pregen

namespace Pregen

theorem dictLookup_dictInsert_same {κ α : Type} [DecidableEq κ]
    (l : List (κ × α)) (k : κ) (v : α) :
    dictLookup (dictInsert l k v) k = some v := by
  induction l with
  | nil => simp [dictInsert, dictLookup]
  | cons p rest ih =>
    obtain ⟨k', v'⟩ := p
    by_cases hk : k' = k
    · simp [dictInsert, dictLookup, hk]
    · simp [dictInsert, dictLookup, hk, ih]

theorem dictLookup_dictInsert_other {κ α : Type} [DecidableEq κ]
    (l : List (κ × α)) (k k' : κ) (v : α) (h : k' ≠ k) :
    dictLookup (dictInsert l k v) k' = dictLookup l k' := by
  induction l with
  | nil =>
    have hne : ¬ k = k' := fun he => h he.symm
    simp [dictInsert, dictLookup, hne]
  | cons p rest ih =>
    obtain ⟨k2, v2⟩ := p
    by_cases hk : k2 = k
    · subst hk
      have hne : ¬ k2 = k' := fun he => h he.symm
      simp [dictInsert, dictLookup, hne]
    · simp [dictInsert, dictLookup, hk, ih]

theorem dictLookup_isSome_iff {κ α : Type} [DecidableEq κ]
    (l : List (κ × α)) (k : κ) :
    (dictLookup l k).isSome = true ↔ ∃ p ∈ l, p.1 = k := by
  induction l with
  | nil => simp [dictLookup]
  | cons p rest ih =>
    obtain ⟨k', v'⟩ := p
    by_cases hk : k' = k
    · subst hk
      simp [dictLookup]
    · simp only [dictLookup, if_neg hk, ih, List.mem_cons]
      constructor
      · rintro ⟨p, hp, hpk⟩
        exact ⟨p, Or.inr hp, hpk⟩
      · rintro ⟨p, hp | hp, hpk⟩
        · subst hp
          exact absurd hpk hk
        · exact ⟨p, hp, hpk⟩

/-- Does the nested index hold an entry at `(b, sc)`? -/
def indexHas (idx : List (Str × List (Nat × ThumbIndexEntry))) (b : Str) (sc : Nat) : Bool :=
  match dictLookup idx b with
  | none => false
  | some inner => (dictLookup inner sc).isSome

theorem indexHas_dictInsert2 (idx : List (Str × List (Nat × ThumbIndexEntry)))
    (b' : Str) (sc' : Nat) (v : ThumbIndexEntry) (b : Str) (sc : Nat) :
    indexHas (dictInsert2 idx b' sc' v) b sc
      = (indexHas idx b sc || (decide (b = b') && decide (sc = sc'))) := by
  by_cases hb : b = b'
  · subst hb
    unfold indexHas dictInsert2
    rw [dictLookup_dictInsert_same]
    show (dictLookup (dictInsert ((dictLookup idx b).getD []) sc' v) sc).isSome = _
    by_cases hsc : sc = sc'
    · subst hsc
      rw [dictLookup_dictInsert_same]
      cases hli : dictLookup idx b with
      | none => simp
      | some inner => simp
    · rw [dictLookup_dictInsert_other _ _ _ _ hsc]
      cases hli : dictLookup idx b with
      | none => simp [dictLookup, hsc]
      | some inner => simp [hsc]
  · unfold indexHas dictInsert2
    rw [dictLookup_dictInsert_other _ _ _ _ hb]
    simp [hb]

/-- The bucket `(normalized_key, scale)` a listed thumbnail lands in:
the extracted pair, or itself at scale 0. -/
def bucketOf (k : Str) : Str × Nat :=
  match extract_thumbnail_info k with
  | some p => p
  | none => (k, 0)

theorem loadThumbnailIndex_step (idx : List (Str × List (Nat × ThumbIndexEntry)))
    (t : StorageObj) :
    (match extract_thumbnail_info t.key with
      | some (norm, scale) =>
        dictInsert2 idx norm scale ⟨t.key, t.size, t.last_modified⟩
      | none =>
        dictInsert2 idx t.key 0 ⟨t.key, t.size, t.last_modified⟩)
      = dictInsert2 idx (bucketOf t.key).1 (bucketOf t.key).2
          ⟨t.key, t.size, t.last_modified⟩ := by
  unfold bucketOf
  cases hx : extract_thumbnail_info t.key with
  | none => rfl
  | some p => obtain ⟨n, s⟩ := p; rfl

theorem indexHas_fold (b : Str) (sc : Nat) :
    ∀ (ts : List StorageObj) (idx : List (Str × List (Nat × ThumbIndexEntry))),
      indexHas (ts.foldl
        (fun index thumb =>
          match extract_thumbnail_info thumb.key with
          | some (norm, scale) =>
            dictInsert2 index norm scale ⟨thumb.key, thumb.size, thumb.last_modified⟩
          | none =>
            dictInsert2 index thumb.key 0 ⟨thumb.key, thumb.size, thumb.last_modified⟩)
        idx) b sc = true
      ↔ (indexHas idx b sc = true ∨ ∃ t ∈ ts, bucketOf t.key = (b, sc)) := by
  intro ts
  induction ts with
  | nil => simp
  | cons t ts ih =>
    intro idx
    rw [List.foldl_cons, ih, loadThumbnailIndex_step, indexHas_dictInsert2]
    simp only [Bool.or_eq_true, Bool.and_eq_true, decide_eq_true_eq, List.mem_cons]
    constructor
    · rintro (⟨h | ⟨hb, hsc⟩⟩ | ⟨t', ht', hb⟩)
      · exact Or.inl h
      · exact Or.inr ⟨t, Or.inl rfl, by rw [Prod.ext_iff]; exact ⟨hb.symm, hsc.symm⟩⟩
      · exact Or.inr ⟨t', Or.inr ht', hb⟩
    · rintro (h | ⟨t', ht' | ht', hb⟩)
      · exact Or.inl (Or.inl h)
      · subst ht'
        rw [Prod.ext_iff] at hb
        exact Or.inl (Or.inr ⟨hb.1.symm, hb.2.symm⟩)
      · exact Or.inr ⟨t', ht', hb⟩

theorem indexHas_loadThumbnailIndex (st : Storage) (c : Str) (b : Str) (sc : Nat) :
    indexHas (loadThumbnailIndex st c) b sc = true
      ↔ ∃ t ∈ list_thumbnails st c, bucketOf t.key = (b, sc) := by
  unfold loadThumbnailIndex
  rw [indexHas_fold b sc (list_thumbnails st c) []]
  simp [indexHas, dictLookup]

end Pregen

namespace Pregen

theorem add_thumbnail_has (r : ImageRecord) (info : ThumbnailInfo) (sc : Nat) :
    (r.add_thumbnail info).has_thumbnail sc
      = (r.has_thumbnail sc || decide (sc = info.scale)) := by
  unfold ImageRecord.add_thumbnail ImageRecord.has_thumbnail
  by_cases hsc : sc = info.scale
  · subst hsc
    simp [dictLookup_dictInsert_same]
  · simp only
    rw [dictLookup_dictInsert_other _ _ _ _ hsc]
    simp [hsc]

theorem addThumbsFromIndex_has (sc : Nat) :
    ∀ (scales : List (Nat × ThumbIndexEntry)) (r : ImageRecord),
      (addThumbsFromIndex r scales).has_thumbnail sc = true
        ↔ (r.has_thumbnail sc = true ∨ ∃ p ∈ scales, p.1 = sc) := by
  intro scales
  induction scales with
  | nil => intro r; simp [addThumbsFromIndex]
  | cons p rest ih =>
    intro r
    unfold addThumbsFromIndex at ih ⊢
    rw [List.foldl_cons, ih]
    rw [add_thumbnail_has]
    simp only [Bool.or_eq_true, decide_eq_true_eq, List.mem_cons]
    constructor
    · rintro (⟨h | h⟩ | ⟨q, hq, hqsc⟩)
      · exact Or.inl h
      · exact Or.inr ⟨p, Or.inl rfl, h.symm⟩
      · exact Or.inr ⟨q, Or.inr hq, hqsc⟩
    · rintro (h | ⟨q, hq | hq, hqsc⟩)
      · exact Or.inl (Or.inl h)
      · subst hq
        exact Or.inl (Or.inr hqsc.symm)
      · exact Or.inr ⟨q, hq, hqsc⟩

theorem addThumbsFromIndex_base (r : ImageRecord)
    (scales : List (Nat × ThumbIndexEntry)) :
    (addThumbsFromIndex r scales).base_thumbnail_key = r.base_thumbnail_key := by
  unfold addThumbsFromIndex
  induction scales generalizing r with
  | nil => rfl
  | cons p rest ih => rw [List.foldl_cons, ih]; rfl

theorem dictLookup_getD_mem_iff (idx : List (Str × List (Nat × ThumbIndexEntry)))
    (b : Str) (sc : Nat) :
    (∃ p ∈ (dictLookup idx b).getD [], p.1 = sc) ↔ indexHas idx b sc = true := by
  unfold indexHas
  cases hli : dictLookup idx b with
  | none => simp
  | some inner => simp [dictLookup_isSome_iff]

/-- The record the full-index scan builds for original `o` of
collection `c`. -/
def mkIndexRecord (st : Storage) (c : Str) (o : StorageObj) : ImageRecord :=
  addThumbsFromIndex
    { original_key := o.key
      original_size := o.size
      original_modified := o.last_modified
      base_thumbnail_key := clientThumbKey o.key
      collection := c
      filename := (splitPath o.key).2 }
    ((dictLookup (loadThumbnailIndex st c) (clientThumbKey o.key)).getD [])

/-- For a full-index scan record, having a thumbnail at a scale is
exactly the existence of a listed thumbnail bucketed at
`(base key, scale)`. -/
theorem mkIndexRecord_has (st : Storage) (c : Str) (o : StorageObj) (sc : Nat) :
    (mkIndexRecord st c o).has_thumbnail sc = true
      ↔ ∃ t ∈ list_thumbnails st c, bucketOf t.key = (clientThumbKey o.key, sc) := by
  unfold mkIndexRecord
  rw [addThumbsFromIndex_has]
  rw [dictLookup_getD_mem_iff, indexHas_loadThumbnailIndex]
  simp [ImageRecord.has_thumbnail, dictLookup]

theorem scanOriginalsLoop_records_none (st : Storage) (c : Str)
    (idx : List (Str × List (Nat × ThumbIndexEntry))) (a : Nat) :
    ∀ (os : List StorageObj) (m : Manifest) (count : Nat),
      (scanOriginalsLoop st c false idx none a os m count).1.records
        = m.records ++ os.map (fun o =>
            addThumbsFromIndex
              { original_key := o.key
                original_size := o.size
                original_modified := o.last_modified
                base_thumbnail_key := clientThumbKey o.key
                collection := c
                filename := (splitPath o.key).2 }
              ((dictLookup idx (clientThumbKey o.key)).getD [])) := by
  intro os
  induction os with
  | nil => intro m count; simp [scanOriginalsLoop]
  | cons o os ih =>
    intro m count
    simp only [scanOriginalsLoop, pyTruthy, Bool.false_and, Bool.false_eq_true, if_false]
    rw [ih]
    simp [Manifest.add_record]

theorem scanLoop_records_none (st : Storage) :
    ∀ (cs : List Str) (m : Manifest) (total : Nat),
      (scanLoop st none cs m total false).records
        = m.records ++ (cs.map (fun c =>
            (list_originals st c).map (mkIndexRecord st c))).flatten := by
  intro cs
  induction cs with
  | nil => intro m total; simp [scanLoop]
  | cons c cs ih =>
    intro m total
    simp only [scanLoop, Bool.false_eq_true, if_false, pyTruthy, Bool.false_and]
    rw [ih]
    unfold scanCollection
    simp only
    rw [scanOriginalsLoop_records_none]
    simp [mkIndexRecord]

/-- The records of an unlimited scan over explicitly-passed collections. -/
theorem scan_records_none (st : Storage) (cs : List Str) (hcs : cs ≠ []) (ca : Str) :
    (scan st (some cs) none ca).records
      = (cs.map (fun c => (list_originals st c).map (mkIndexRecord st c))).flatten := by
  unfold scan
  rw [if_pos (by simp [pyTruthyList, hcs])]
  rw [scanLoop_records_none]
  simp [Manifest.create_new]

end Pregen

namespace Pregen

/-- Well-formedness of an original's key, checked against its derived
base thumbnail key `b = clientThumbKey k`: `b` sits under this
collection's thumbnail namespace, under no collection's originals
namespace, and decomposes as `dir ++ stem ++ "." ++ ext` with a
nonempty newline-free stem, a nonempty extension free of `'/'` and
newlines that is allow-listed, and a well-formed directory part.
Every real asset key (`attachments/<coll>/originals/<aa>/<bb>/<uuid>.<ext>`)
satisfies this. -/
def goodKeyB (st : Storage) (cs : List Str) (c : Str) (k : Str) : Bool :=
  let b := clientThumbKey k
  strStartsWith b (st.pfx ++ '/' :: c ++ (("/thumbnails/").data)) &&
  (cs.all (fun x =>
    !(strStartsWith b (st.pfx ++ '/' :: x ++ (("/originals/").data))))) &&
  (match rsplit1 '.' b with
   | none => false
   | some (root, e) =>
     !(decide (e = [])) && !(decide ('/' ∈ e)) && !(decide ('\n' ∈ e)) &&
     IMAGE_EXTENSIONS.contains (asciiLower ('.' :: e)) &&
     (match rsplit1 '/' root with
      | none => false
      | some (d1, s) =>
        !(decide (s = [])) && !(decide ('\n' ∈ s)) &&
        ((d1 ++ ['/']).all (fun x => x = '/') || !(decide (d1.getLast? = some '/')))))

theorem getLast?_slash_suffix (pre c suffix : Str) (hne : suffix ≠ [])
    (hsuf : suffix.getLast? = some '/') :
    (pre ++ '/' :: c ++ suffix).getLast? = some '/' := by
  rw [List.getLast?_append_of_ne_nil (pre ++ '/' :: c) hne, hsuf]

theorem splitext_thumb (d1 s digits e : Str)
    (hT : '/' ∉ s ++ '_' :: digits ++ '.' :: e)
    (hed : '.' ∉ e) :
    splitext (d1 ++ '/' :: (s ++ '_' :: digits ++ '.' :: e))
      = (d1 ++ '/' :: (s ++ '_' :: digits), '.' :: e) := by
  have hdot : rsplit1 '.' (d1 ++ '/' :: (s ++ '_' :: digits ++ '.' :: e))
      = some (d1 ++ '/' :: (s ++ '_' :: digits), e) := by
    have h := rsplit1_append_cons '.' (d1 ++ '/' :: (s ++ '_' :: digits)) e hed
    simpa [List.append_assoc] using h
  have hslash : rsplit1 '/' (d1 ++ '/' :: (s ++ '_' :: digits ++ '.' :: e))
      = some (d1, s ++ '_' :: digits ++ '.' :: e) :=
    rsplit1_append_cons '/' d1 _ hT
  have hbn : rsplit1 '.' (s ++ '_' :: digits ++ '.' :: e)
      = some (s ++ '_' :: digits, e) := by
    have h := rsplit1_append_cons '.' (s ++ '_' :: digits) e hed
    simpa [List.append_assoc] using h
  have hany : (s ++ '_' :: digits).any (fun c => c ≠ '.') = true := by
    rw [List.any_eq_true]
    exact ⟨'_', by simp, by decide⟩
  unfold splitext
  simp only [hdot, hslash, hbn, hany, if_true]

/-- Everything the composition proof needs about a good original key:
its derived scale key round-trips through `extract_thumbnail_info`,
lives under the collection's thumbnail namespace, passes the image
filter, and is under no collection's originals namespace. -/
theorem goodKey_facts (st : Storage) (cs : List Str) (c : Str) (k : Str) (target : Nat)
    (h : goodKeyB st cs c k = true) :
    ∃ root e,
      rsplit1 '.' (clientThumbKey k) = some (root, e) ∧
      clientThumbKey k = root ++ '.' :: e ∧
      extract_thumbnail_info (root ++ '_' :: natToDecimal target ++ '.' :: e)
        = some (clientThumbKey k, target) ∧
      strStartsWith (root ++ '_' :: natToDecimal target ++ '.' :: e)
        (st.pfx ++ '/' :: c ++ (("/thumbnails/").data)) = true ∧
      isImageKey (root ++ '_' :: natToDecimal target ++ '.' :: e) = true ∧
      (∀ c' ∈ cs, strStartsWith (root ++ '_' :: natToDecimal target ++ '.' :: e)
        (st.pfx ++ '/' :: c' ++ (("/originals/").data)) = false) := by
  unfold goodKeyB at h
  simp only [Bool.and_eq_true] at h
  obtain ⟨⟨hthumb, horig⟩, hmatch⟩ := h
  cases hsp : rsplit1 '.' (clientThumbKey k) with
  | none =>
    simp only [hsp] at hmatch
    simp at hmatch
  | some rooted =>
    obtain ⟨root, e⟩ := rooted
    simp only [hsp] at hmatch
    cases hsp2 : rsplit1 '/' root with
    | none =>
      simp only [hsp2] at hmatch
      simp at hmatch
    | some d1s =>
      obtain ⟨d1, s⟩ := d1s
      simp only [hsp2] at hmatch
      simp only [Bool.and_eq_true, Bool.not_eq_true', decide_eq_false_iff_not,
        Bool.or_eq_true, Bool.not_eq_true] at hmatch
      obtain ⟨⟨⟨⟨he, hes⟩, hen⟩, himg⟩, ⟨⟨hs, hsn⟩, hdir⟩⟩ := hmatch
      obtain ⟨hb, hde⟩ := rsplit1_sound '.' (clientThumbKey k) root e hsp
      obtain ⟨hroot, hds⟩ := rsplit1_sound '/' root d1 s hsp2
      have hdir' : (d1 ++ ['/']).all (fun x => x = '/') = true ∨
          d1.getLast? ≠ some '/' := by
        rcases hdir with h1 | h1
        · exact Or.inl h1
        · exact Or.inr (by simpa using h1)
      have hdigs : '/' ∉ natToDecimal target := slash_not_mem_natToDecimal target
      have hdote : '/' ∉ ('.' :: e : Str) := by
        intro hm
        rcases List.mem_cons.mp hm with hm | hm
        · exact absurd hm (by decide)
        · exact hes hm
      have hdunder : '/' ∉ ('_' :: natToDecimal target ++ '.' :: e : Str) := by
        intro hm
        rcases List.mem_cons.mp hm with hm | hm
        · exact absurd hm (by decide)
        · rcases List.mem_append.mp hm with hm | hm
          · exact hdigs hm
          · exact hdote hm
      have hext := extract_derived (d1 ++ ['/']) s e target hs hsn hds
        he hde hes hen (Or.inr ⟨d1, rfl, hdir'⟩)
      have htk : root ++ '_' :: natToDecimal target ++ '.' :: e
          = (d1 ++ ['/']) ++ ((s ++ '_' :: natToDecimal target) ++ '.' :: e) := by
        rw [hroot]
        simp
      refine ⟨root, e, rfl, hb, ?_, ?_, ?_, ?_⟩
      · rw [htk, hext, hb, hroot]
        simp
      · have hpre : strStartsWith root
            (st.pfx ++ '/' :: c ++ (("/thumbnails/").data)) = true := by
          refine ssw_append_no_slash ('.' :: e) hdote _ root
            (getLast?_slash_suffix st.pfx c _ (by decide) (by decide)) ?_
          rw [← hb]
          exact hthumb
        have h2 := ssw_append_right root
          (st.pfx ++ '/' :: c ++ (("/thumbnails/").data))
          ('_' :: natToDecimal target ++ '.' :: e) hpre
        simpa [List.append_assoc] using h2
      · have hTslash : '/' ∉ s ++ '_' :: natToDecimal target ++ '.' :: e := by
          intro hm
          rcases List.mem_append.mp hm with hm | hm
          · rcases List.mem_append.mp hm with hm | hm
            · exact hds hm
            · rcases List.mem_cons.mp hm with hm | hm
              · exact absurd hm (by decide)
              · exact hdigs hm
          · exact hdote hm
        have hsplit := splitext_thumb d1 s (natToDecimal target) e hTslash hde
        unfold isImageKey
        rw [show root ++ '_' :: natToDecimal target ++ '.' :: e
            = d1 ++ '/' :: (s ++ '_' :: natToDecimal target ++ '.' :: e) by
          rw [hroot]
          simp]
        rw [hsplit]
        exact himg
      · intro c' hc'
        have hb_orig : strStartsWith (clientThumbKey k)
            (st.pfx ++ '/' :: c' ++ (("/originals/").data)) = false := by
          have := List.all_eq_true.mp horig c' hc'
          simpa using this
        by_contra hcon
        rw [Bool.not_eq_false] at hcon
        have hcon' : strStartsWith (root ++ ('_' :: natToDecimal target ++ '.' :: e))
            (st.pfx ++ '/' :: c' ++ (("/originals/").data)) = true := by
          simpa [List.append_assoc] using hcon
        have hpre : strStartsWith root
            (st.pfx ++ '/' :: c' ++ (("/originals/").data)) = true :=
          ssw_append_no_slash ('_' :: natToDecimal target ++ '.' :: e) hdunder _ root
            (getLast?_slash_suffix st.pfx c' _ (by decide) (by decide)) hcon'
        have hbt := ssw_append_right root
          (st.pfx ++ '/' :: c' ++ (("/originals/").data)) ('.' :: e) hpre
        rw [← hb] at hbt
        rw [hbt] at hb_orig
        exact Bool.noConfusion hb_orig
end Pregen

namespace Pregen

/-! ## Persistence of the bucket under a generation run's storage trace -/

theorem applyOps_cons (st : Storage) (op : StorageOp) (ops : List StorageOp) (now : Str) :
    applyOps st (op :: ops) now
      = applyOps (match op with
          | .download _ => st
          | .upload k data _ true => putObject st k data now
          | .upload _ _ _ false => st) ops now := rfl

theorem putObject_pfx (st : Storage) (k : Str) (data : List Nat) (now : Str) :
    (putObject st k data now).pfx = st.pfx := by
  unfold putObject
  split <;> rfl

theorem applyOps_pfx (now : Str) :
    ∀ (ops : List StorageOp) (st : Storage), (applyOps st ops now).pfx = st.pfx := by
  intro ops
  induction ops with
  | nil => intro st; rfl
  | cons op ops ih =>
    intro st
    rw [applyOps_cons]
    cases op with
    | download k => exact ih st
    | upload k d ct ok =>
      cases ok with
      | false => exact ih st
      | true => rw [ih (putObject st k d now), putObject_pfx]

theorem filter_map_overwrite (p : Str → Bool) (k : Str) (data : List Nat) (now : Str)
    (hp : p k = false) :
    ∀ l : List StorageObj,
      (l.map (fun o => if o.key = k then (⟨o.key, data.length, now⟩ : StorageObj) else o)).filter
          (fun o => p o.key)
        = l.filter (fun o => p o.key) := by
  intro l
  induction l with
  | nil => rfl
  | cons o l ih =>
    rw [List.map_cons]
    by_cases ho : o.key = k
    · have h1 : p o.key = false := by rw [ho]; exact hp
      rw [if_pos ho, List.filter_cons, List.filter_cons]
      simp only [h1, Bool.false_eq_true, if_false]
      exact ih
    · rw [if_neg ho, List.filter_cons, List.filter_cons, ih]

/-- An upload to a key the filter rejects leaves the filtered listing
unchanged (an overwrite replaces size/modified in place, a fresh key is
appended past the filter). -/
theorem putObject_filter_key (st : Storage) (k : Str) (data : List Nat) (now : Str)
    (p : Str → Bool) (hp : p k = false) :
    (putObject st k data now).objects.filter (fun o => p o.key)
      = st.objects.filter (fun o => p o.key) := by
  unfold putObject
  by_cases hc : (st.objects.map StorageObj.key).contains k
  · rw [if_pos hc]
    exact filter_map_overwrite p k data now hp st.objects
  · rw [if_neg hc]
    have hobj : ({ st with objects := st.objects ++ [⟨k, data.length, now⟩] } : Storage).objects
        = st.objects ++ [(⟨k, data.length, now⟩ : StorageObj)] := rfl
    rw [hobj, List.filter_append]
    simp [hp]

theorem applyOps_filter_key (now : Str) (p : Str → Bool) :
    ∀ (ops : List StorageOp) (st : Storage),
      (∀ k d ct, StorageOp.upload k d ct true ∈ ops → p k = false) →
      (applyOps st ops now).objects.filter (fun o => p o.key)
        = st.objects.filter (fun o => p o.key) := by
  intro ops
  induction ops with
  | nil => intro st h; rfl
  | cons op ops ih =>
    intro st h
    rw [applyOps_cons]
    cases op with
    | download k => exact ih st (fun k d ct hm => h k d ct (List.mem_cons_of_mem _ hm))
    | upload k data ct ok =>
      cases ok with
      | false => exact ih st (fun k2 d2 ct2 hm => h k2 d2 ct2 (List.mem_cons_of_mem _ hm))
      | true =>
        rw [ih (putObject st k data now)
          (fun k2 d2 ct2 hm => h k2 d2 ct2 (List.mem_cons_of_mem _ hm))]
        exact putObject_filter_key st k data now p (h k data ct (List.mem_cons_self _ _))

/-- No successful upload under a collection's originals namespace means
the originals listing (keys, sizes and timestamps) is untouched. -/
theorem list_originals_applyOps (st : Storage) (ops : List StorageOp) (now : Str) (c : Str)
    (h : ∀ k d ct, StorageOp.upload k d ct true ∈ ops →
      strStartsWith k (st.pfx ++ '/' :: c ++ (("/originals/").data)) = false) :
    list_originals (applyOps st ops now) c = list_originals st c := by
  unfold list_originals listWithPre
  rw [applyOps_pfx]
  exact congrArg (List.filter (fun o => isImageKey o.key))
    (applyOps_filter_key now
      (fun x => strStartsWith x (st.pfx ++ '/' :: c ++ (("/originals/").data))) ops st h)

theorem mem_key_putObject (st : Storage) (k : Str) (data : List Nat) (now : Str)
    (t : StorageObj) (ht : t ∈ st.objects) :
    ∃ t' ∈ (putObject st k data now).objects, t'.key = t.key := by
  unfold putObject
  by_cases hc : (st.objects.map StorageObj.key).contains k
  · rw [if_pos hc]
    refine ⟨if t.key = k then ⟨t.key, data.length, now⟩ else t,
      List.mem_map.mpr ⟨t, ht, rfl⟩, ?_⟩
    by_cases hk : t.key = k
    · rw [if_pos hk]
    · rw [if_neg hk]
  · rw [if_neg hc]
    exact ⟨t, List.mem_append_left _ ht, rfl⟩

/-- Writes never remove a key: every stored object survives (possibly
with new size/timestamp) under its key. -/
theorem mem_key_applyOps (now : Str) :
    ∀ (ops : List StorageOp) (st : Storage) (t : StorageObj), t ∈ st.objects →
      ∃ t' ∈ (applyOps st ops now).objects, t'.key = t.key := by
  intro ops
  induction ops with
  | nil => intro st t ht; exact ⟨t, ht, rfl⟩
  | cons op ops ih =>
    intro st t ht
    rw [applyOps_cons]
    cases op with
    | download k => exact ih st t ht
    | upload k data ct ok =>
      cases ok with
      | false => exact ih st t ht
      | true =>
        obtain ⟨t1, ht1, hk1⟩ := mem_key_putObject st k data now t ht
        obtain ⟨t', ht', hk'⟩ := ih (putObject st k data now) t1 ht1
        exact ⟨t', ht', hk'.trans hk1⟩

theorem hasKey_putObject_self (st : Storage) (k : Str) (data : List Nat) (now : Str) :
    ∃ t ∈ (putObject st k data now).objects, t.key = k := by
  unfold putObject
  by_cases hc : (st.objects.map StorageObj.key).contains k
  · rw [if_pos hc]
    have hmem : k ∈ st.objects.map StorageObj.key := by simpa using hc
    obtain ⟨o, ho, hok⟩ := List.mem_map.mp hmem
    refine ⟨⟨o.key, data.length, now⟩, List.mem_map.mpr ⟨o, ho, ?_⟩, hok⟩
    rw [if_pos hok]
  · rw [if_neg hc]
    exact ⟨⟨k, data.length, now⟩, List.mem_append_right _ (List.mem_singleton.mpr rfl), rfl⟩

/-- A successful upload in the trace leaves its key present in the
final bucket. -/
theorem hasKey_applyOps_of_mem (now : Str) :
    ∀ (ops : List StorageOp) (st : Storage) (k : Str) (d : List Nat) (ct : Str),
      StorageOp.upload k d ct true ∈ ops →
      ∃ t' ∈ (applyOps st ops now).objects, t'.key = k := by
  intro ops
  induction ops with
  | nil => intro st k d ct h; exact absurd h (List.not_mem_nil _)
  | cons op ops ih =>
    intro st k d ct h
    rw [applyOps_cons]
    rcases List.mem_cons.mp h with heq | hmem
    · clear h
      subst heq
      obtain ⟨t1, ht1, hk1⟩ := hasKey_putObject_self st k d now
      obtain ⟨t', ht', hk'⟩ := mem_key_applyOps now ops (putObject st k d now) t1 ht1
      exact ⟨t', ht', hk'.trans hk1⟩
    · clear h
      cases op with
      | download k2 => exact ih st k d ct hmem
      | upload k2 d2 ct2 ok =>
        cases ok with
        | false => exact ih st k d ct hmem
        | true => exact ih (putObject st k2 d2 now) k d ct hmem

theorem mem_list_thumbnails_iff (st : Storage) (c : Str) (t : StorageObj) :
    t ∈ list_thumbnails st c
      ↔ t ∈ st.objects
        ∧ strStartsWith t.key (st.pfx ++ '/' :: c ++ (("/thumbnails/").data)) = true
        ∧ isImageKey t.key = true := by
  unfold list_thumbnails listWithPre
  simp only [List.mem_filter]
  tauto

theorem mem_list_thumbnails_applyOps (st : Storage) (ops : List StorageOp) (now : Str)
    (c : Str) (t : StorageObj) (ht : t ∈ list_thumbnails st c) :
    ∃ t' ∈ list_thumbnails (applyOps st ops now) c, t'.key = t.key := by
  obtain ⟨h1, h2, h3⟩ := (mem_list_thumbnails_iff st c t).mp ht
  obtain ⟨t', ht', hk'⟩ := mem_key_applyOps now ops st t h1
  refine ⟨t', (mem_list_thumbnails_iff _ c t').mpr ⟨ht', ?_, ?_⟩, hk'⟩
  · rw [applyOps_pfx now ops st, hk']
    exact h2
  · rw [hk']
    exact h3

theorem upload_mem_list_thumbnails (st : Storage) (ops : List StorageOp) (now : Str)
    (c : Str) (k : Str) (d : List Nat) (ct : Str)
    (hmem : StorageOp.upload k d ct true ∈ ops)
    (hpre : strStartsWith k (st.pfx ++ '/' :: c ++ (("/thumbnails/").data)) = true)
    (himg : isImageKey k = true) :
    ∃ t' ∈ list_thumbnails (applyOps st ops now) c, t'.key = k := by
  obtain ⟨t', ht', hk'⟩ := hasKey_applyOps_of_mem now ops st k d ct hmem
  refine ⟨t', (mem_list_thumbnails_iff _ c t').mpr ⟨ht', ?_, ?_⟩, hk'⟩
  · rw [applyOps_pfx now ops st, hk']
    exact hpre
  · rw [hk']
    exact himg

end Pregen

namespace Pregen

/-! ## The storage trace of a non-dry generation run -/

/-- The storage calls `_process_record` makes for one candidate (they
depend only on the record, not on the running statistics). -/
def recordOps (env : GenEnv) (target : Nat) (r : ImageRecord) : List StorageOp :=
  match runPipeline env target r with
  | .failEarly _ => [.download r.original_key]
  | .failUpload _ tk td ct => [.download r.original_key, .upload tk td ct false]
  | .success tk td ct => [.download r.original_key, .upload tk td ct true]

theorem processRecord_ops (env : GenEnv) (target : Nat) (stats : GenerationStats)
    (r : ImageRecord) :
    (processRecord env target false stats r).2 = recordOps env target r := by
  unfold processRecord recordOps
  simp only [Bool.false_eq_true, if_false]
  cases runPipeline env target r <;> rfl

theorem genLoop_ops (env : GenEnv) (target : Nat) :
    ∀ (rs : List ImageRecord) (stats : GenerationStats) (ops : List StorageOp),
      (genLoop env target false false rs stats ops).2
        = ops ++ (rs.map (recordOps env target)).flatten := by
  intro rs
  induction rs with
  | nil => intro stats ops; simp [genLoop]
  | cons r rs ih =>
    intro stats ops
    simp only [genLoop, Bool.false_eq_true, if_false]
    rw [ih, processRecord_ops]
    simp [List.append_assoc]

theorem generateFromManifest_ops (env : GenEnv) (target : Nat) (m : Manifest)
    (colls : Option (List Str)) (rf : Option Str) (lim : Option Nat) :
    (generateFromManifest env target false false m colls rf lim).2
      = ((collectWithLimit lim 0 (getRecordsToProcess target colls rf m.records)).map
          (recordOps env target)).flatten := by
  simp only [generateFromManifest, Bool.false_eq_true, if_false]
  rw [genLoop_ops]
  exact List.nil_append _

/-- With no collection filter and no resume cursor, the candidate pass
keeps exactly the records missing the target scale. -/
theorem getRecordsToProcess_none (target : Nat) (records : List ImageRecord) :
    getRecordsToProcess target none none records
      = records.filter (fun r => !r.has_thumbnail target) := by
  unfold getRecordsToProcess
  rw [recordsToProcessGo_latched]
  rfl

/-- When every storage call succeeds and the scale key is derivable,
the try block of `_process_record` succeeds with that key. -/
theorem runPipeline_success (env : GenEnv) (target : Nat) (r : ImageRecord)
    (hdl : ∀ k, ∃ d, env.download k = Except.ok d)
    (htr : ∀ d e, ∃ p, env.transcode d e = Except.ok p)
    (hup : ∀ k d ct, env.upload k d ct = Except.ok ())
    (tk : Str) (hk : r.get_thumbnail_key target = some tk) :
    ∃ td ct, runPipeline env target r = PipelineResult.success tk td ct := by
  obtain ⟨d, hd⟩ := hdl r.original_key
  obtain ⟨⟨td, ct⟩, ht⟩ := htr d (splitext r.filename).2
  refine ⟨td, ct, ?_⟩
  unfold runPipeline
  simp only [hd, ht, hk, hup]

theorem recordOps_success (env : GenEnv) (target : Nat) (r : ImageRecord)
    (hdl : ∀ k, ∃ d, env.download k = Except.ok d)
    (htr : ∀ d e, ∃ p, env.transcode d e = Except.ok p)
    (hup : ∀ k d ct, env.upload k d ct = Except.ok ())
    (tk : Str) (hk : r.get_thumbnail_key target = some tk) :
    ∃ td ct, recordOps env target r
      = [StorageOp.download r.original_key, StorageOp.upload tk td ct true] := by
  obtain ⟨td, ct, hpl⟩ := runPipeline_success env target r hdl htr hup tk hk
  refine ⟨td, ct, ?_⟩
  unfold recordOps
  rw [hpl]

theorem mkIndexRecord_base (st : Storage) (c : Str) (o : StorageObj) :
    (mkIndexRecord st c o).base_thumbnail_key = clientThumbKey o.key := by
  unfold mkIndexRecord
  rw [addThumbsFromIndex_base]

theorem mkIndexRecord_thumbKey (st : Storage) (c : Str) (o : StorageObj) (target : Nat)
    (root e : Str) (hsp : rsplit1 '.' (clientThumbKey o.key) = some (root, e)) :
    (mkIndexRecord st c o).get_thumbnail_key target
      = some (root ++ '_' :: natToDecimal target ++ '.' :: e) := by
  unfold ImageRecord.get_thumbnail_key
  rw [mkIndexRecord_base]
  simp only [hsp]

end Pregen

namespace Pregen

/-- After a fully-successful generation run over a fresh scan, every
record of a rescan of the updated bucket already holds the target
scale: persisted thumbnails survive under their keys, and each newly
uploaded key extracts back to `(base key, target)` in the rebuilt
index. -/
theorem rescan_all_have_target (st st2 : Storage) (cs : List Str) (env : GenEnv)
    (target : Nat) (ca now : Str) (ops1 : List StorageOp)
    (hcs : cs ≠ [])
    (hgood : ∀ c ∈ cs, ∀ o ∈ list_originals st c, goodKeyB st cs c o.key = true)
    (hdl : ∀ k, ∃ d, env.download k = Except.ok d)
    (htr : ∀ d e, ∃ p, env.transcode d e = Except.ok p)
    (hup : ∀ k d ct, env.upload k d ct = Except.ok ())
    (hops1 : ops1 = (generateFromManifest env target false false
      (scan st (some cs) none ca) none none none).2)
    (hst2 : st2 = applyOps st ops1 now) :
    ∀ r ∈ (scan st2 (some cs) none ca).records, r.has_thumbnail target = true := by
  have hops_eq : ops1 = (((scan st (some cs) none ca).records.filter
      (fun r => !r.has_thumbnail target)).map (recordOps env target)).flatten := by
    rw [hops1, generateFromManifest_ops, collectWithLimit_falsy none rfl,
      getRecordsToProcess_none]
  have hmem_m1 : ∀ r1 ∈ (scan st (some cs) none ca).records,
      ∃ c ∈ cs, ∃ o ∈ list_originals st c, r1 = mkIndexRecord st c o := by
    intro r1 h1
    rw [scan_records_none st cs hcs ca, List.mem_flatten] at h1
    obtain ⟨s, hs, hrs⟩ := h1
    rw [List.mem_map] at hs
    obtain ⟨c, hc, rfl⟩ := hs
    rw [List.mem_map] at hrs
    obtain ⟨o, ho, rfl⟩ := hrs
    exact ⟨c, hc, o, ho, rfl⟩
  have hupkeys : ∀ k d ct, StorageOp.upload k d ct true ∈ ops1 →
      ∀ c' ∈ cs, strStartsWith k (st.pfx ++ '/' :: c' ++ (("/originals/").data)) = false := by
    intro k d ct hk
    rw [hops_eq, List.mem_flatten] at hk
    obtain ⟨s, hs, hks⟩ := hk
    rw [List.mem_map] at hs
    obtain ⟨r1, hr1, rfl⟩ := hs
    obtain ⟨c, hc, o, ho, rfl⟩ := hmem_m1 r1 (List.mem_filter.mp hr1).1
    obtain ⟨root, e, hsp, hb, hext, hthumb2, himg2, hnog⟩ :=
      goodKey_facts st cs c o.key target (hgood c hc o ho)
    obtain ⟨td, ct2, hro⟩ := recordOps_success env target (mkIndexRecord st c o) hdl htr hup
      (root ++ '_' :: natToDecimal target ++ '.' :: e)
      (mkIndexRecord_thumbKey st c o target root e hsp)
    rw [hro] at hks
    rcases List.mem_cons.mp hks with hks | hks
    · exact StorageOp.noConfusion hks
    · rcases List.mem_cons.mp hks with hks | hks
      · injection hks with h1 h2 h3 h4
        subst h1
        exact hnog
      · exact absurd hks (List.not_mem_nil _)
  intro r hr
  rw [scan_records_none st2 cs hcs ca, List.mem_flatten] at hr
  obtain ⟨s, hs, hrs⟩ := hr
  rw [List.mem_map] at hs
  obtain ⟨c, hc, rfl⟩ := hs
  rw [List.mem_map] at hrs
  obtain ⟨o, ho, rfl⟩ := hrs
  have horig : list_originals st2 c = list_originals st c := by
    rw [hst2]
    exact list_originals_applyOps st ops1 now c
      (fun k d ct hk => hupkeys k d ct hk c hc)
  rw [horig] at ho
  rw [mkIndexRecord_has st2 c o target, hst2]
  by_cases hth : (mkIndexRecord st c o).has_thumbnail target = true
  · obtain ⟨t, htmem, hbk⟩ := (mkIndexRecord_has st c o target).mp hth
    obtain ⟨t', ht', hk'⟩ := mem_list_thumbnails_applyOps st ops1 now c t htmem
    refine ⟨t', ht', ?_⟩
    rw [hk']
    exact hbk
  · have hthf : (mkIndexRecord st c o).has_thumbnail target = false :=
      Bool.eq_false_iff.mpr hth
    obtain ⟨root, e, hsp, hb, hext, hthumb2, himg2, hnog⟩ :=
      goodKey_facts st cs c o.key target (hgood c hc o ho)
    obtain ⟨td, ct2, hro⟩ := recordOps_success env target (mkIndexRecord st c o) hdl htr hup
      (root ++ '_' :: natToDecimal target ++ '.' :: e)
      (mkIndexRecord_thumbKey st c o target root e hsp)
    have hcand : mkIndexRecord st c o ∈ (scan st (some cs) none ca).records.filter
        (fun r => !r.has_thumbnail target) := by
      rw [List.mem_filter]
      refine ⟨?_, by rw [hthf]; rfl⟩
      rw [scan_records_none st cs hcs ca, List.mem_flatten]
      exact ⟨(list_originals st c).map (mkIndexRecord st c),
        List.mem_map.mpr ⟨c, hc, rfl⟩, List.mem_map.mpr ⟨o, ho, rfl⟩⟩
    have hopmem : StorageOp.upload (root ++ '_' :: natToDecimal target ++ '.' :: e)
        td ct2 true ∈ ops1 := by
      rw [hops_eq, List.mem_flatten]
      refine ⟨recordOps env target (mkIndexRecord st c o),
        List.mem_map.mpr ⟨mkIndexRecord st c o, hcand, rfl⟩, ?_⟩
      rw [hro]
      exact List.mem_cons_of_mem _ (List.mem_cons_self _ _)
    obtain ⟨t', ht', hk'⟩ := upload_mem_list_thumbnails st ops1 now c
      (root ++ '_' :: natToDecimal target ++ '.' :: e) td ct2 hopmem hthumb2 himg2
    refine ⟨t', ht', ?_⟩
    rw [hk']
    unfold bucketOf
    simp only [hext]

end Pregen

namespace Pregen

theorem generateFromManifest_empty (env : GenEnv) (target : Nat) (m : Manifest)
    (colls : Option (List Str)) (rf : Option Str) (lim : Option Nat)
    (h : collectWithLimit lim 0 (getRecordsToProcess target colls rf m.records) = []) :
    (generateFromManifest env target false false m colls rf lim).1
      = { total_to_process := 0 } := by
  simp only [generateFromManifest, Bool.false_eq_true, if_false]
  rw [h]
  rfl

/-- C5: Re-running generation for the same target scale against
unchanged storage processes zero additional items on the second run
(generation is idempotent per (original, scale) pair).  Formalised over
the full pipeline — scan, generate, apply the run's storage writes,
rescan, generate again — for any bucket whose original keys are
well-formed (`goodKeyB`) and any environment whose download, transcode
and upload calls all succeed: the second run's candidate count and
processed count are both zero. -/
theorem generation_idempotent (st st2 : Storage) (cs : List Str) (env : GenEnv)
    (target : Nat) (ca now : Str) (m1 m2 : Manifest) (ops1 : List StorageOp)
    (hcs : cs ≠ [])
    (hgood : ∀ c ∈ cs, ∀ o ∈ list_originals st c, goodKeyB st cs c o.key = true)
    (hdl : ∀ k, ∃ d, env.download k = Except.ok d)
    (htr : ∀ d e, ∃ p, env.transcode d e = Except.ok p)
    (hup : ∀ k d ct, env.upload k d ct = Except.ok ())
    (hm1 : m1 = scan st (some cs) none ca)
    (hops1 : ops1 = (generateFromManifest env target false false m1 none none none).2)
    (hst2 : st2 = applyOps st ops1 now)
    (hm2 : m2 = scan st2 (some cs) none ca) :
    (generateFromManifest env target false false m2 none none none).1.processed = 0
      ∧ (generateFromManifest env target false false m2 none none none).1.total_to_process
          = 0 := by
  subst hm1 hops1 hst2 hm2
  have hall := rescan_all_have_target st
    (applyOps st (generateFromManifest env target false false
      (scan st (some cs) none ca) none none none).2 now)
    cs env target ca now
    (generateFromManifest env target false false (scan st (some cs) none ca) none none none).2
    hcs hgood hdl htr hup rfl rfl
  have hc2 : collectWithLimit none 0 (getRecordsToProcess target none none
      (scan (applyOps st (generateFromManifest env target false false
        (scan st (some cs) none ca) none none none).2 now)
        (some cs) none ca).records) = [] := by
    rw [collectWithLimit_falsy none rfl, getRecordsToProcess_none,
      List.filter_eq_nil_iff]
    intro r hr
    rw [hall r hr]
    decide
  refine ⟨?_, ?_⟩ <;>
  · rw [generateFromManifest_empty env target _ none none none hc2]

/-- Environment in which every storage and codec call succeeds. -/
def envW : GenEnv :=
  { download := fun x => Except.ok [7, 7]
    transcode := fun x y => Except.ok ([9, 9, 9], ("image/jpeg").data)
    upload := fun x y z => Except.ok () }

/-- One-collection bucket with a single well-formed original. -/
def stW : Storage :=
  { endpoint := ("http://minio:9000").data
    bucket := ("assets").data
    pfx := ("attachments").data
    objects := [⟨("attachments/c1/originals/a.jpg").data, 5, ("t0").data⟩] }

theorem generation_idempotent_witness :
    (generateFromManifest envW 200 false false
      (scan (applyOps stW (generateFromManifest envW 200 false false
          (scan stW (some [("c1").data]) none (("ca").data)) none none none).2
        (("now").data)) (some [("c1").data]) none (("ca").data))
      none none none).1.processed = 0
    ∧ (generateFromManifest envW 200 false false
      (scan (applyOps stW (generateFromManifest envW 200 false false
          (scan stW (some [("c1").data]) none (("ca").data)) none none none).2
        (("now").data)) (some [("c1").data]) none (("ca").data))
      none none none).1.total_to_process = 0 :=
  generation_idempotent stW _ [("c1").data] envW 200 (("ca").data) (("now").data) _ _ _
    (by decide)
    (by decide)
    (fun k => ⟨[7, 7], rfl⟩)
    (fun d e => ⟨([9, 9, 9], ("image/jpeg").data), rfl⟩)
    (fun k d ct => rfl)
    rfl rfl rfl rfl

end Pregen
